import Mathlib

/-!
Verification development for `src/stitch/stitcher.cc`.

A shallow embedding of the control logic of `Stitcher` (pairwise connectivity,
camera seeding, the two bundle builders, the warp-factor search and the canvas
renderer) together with theorems about it.

Conventions of the embedding.

* The homography algebra (`Homography::I`, `prod`, `inverse`) lives in headers that
  are not part of the sources at hand; every definition is therefore generic in a
  type `H` carrying `1`, `*` and `⁻¹`, and no algebraic law is assumed unless a
  theorem lists it as a hypothesis.  `Mat3` is a concrete 3×3 instance with exact
  rational entries, used to evaluate the definitions on concrete inputs.
* `float`/`double` quantities are idealised as exact rationals.  Where IEEE
  special values steer the control flow (the slope of the warp search, the
  undefined-sample sentinel of the renderer) they are represented explicitly.
* C++ `int` indices are `Int`; `int / int` is `Int.tdiv`; the conversion `double → int`
  truncates toward zero, and the conversion that fixes the canvas size also accounts for values
  outside the range of a 32-bit `int`.
* `error_exit` is modelled by returning an error value; the parallel loops write
  disjoint slots and are modelled sequentially in index order.
-/

namespace Stitcher

/-! ## Loop headers -/

/-- Modelled from the spec: the loop header `REPL(k, a, b)` comes from a utility header that is
absent from the sources; it runs `k = a, a+1, …, b-1` ("walk outward … from mid" up to the last
image `n-1`). -/
def REPL (a b : Int) : List Int :=
  List.map (fun d : Nat => a + (d : Int)) (List.range (b - a).toNat)

/-- Modelled from the spec: the loop header `REP(k, n)` (absent utility header) runs
`k = 0, 1, …, n-1` ("for every image i"). -/
def REP (n : Int) : List Int := REPL 0 n

/-- Modelled from the spec: the loop header `REPD(k, a, b)` (absent utility header) runs
`k = a, a-1, …, b`, both ends included ("identity back to index 0"). -/
def REPD (a b : Int) : List Int :=
  List.map (fun d : Nat => a - (d : Int)) (List.range (a - b + 1).toNat)

/-! ## Bundle data model -/

/-- One access to the vector `bundle.component`, recorded in program order. -/
inductive Access where
  | read (i : Int)
  | write_homo (i : Int)
  | write_homo_inv (i : Int)
  deriving DecidableEq, Repr

/-- The index of `bundle.component` an access touches. -/
def Access.index : Access → Int
  | .read i => i
  | .write_homo i => i
  | .write_homo_inv i => i

/-- Modelled from the spec: the image class is declared in an absent header; of an image only
"width, height" matter here, both C++ `int`. -/
structure Img where
  width : Int
  height : Int
  deriving DecidableEq, Repr

/-- Modelled from the spec: `Vec2D` (absent header), a point of the plane; coordinates are
idealised as exact rationals. -/
structure Vec2D where
  x : ℚ
  y : ℚ
  deriving DecidableEq, Repr

/-- Modelled from the spec: `Vec` (absent header), a homogeneous coordinate triple. -/
structure Vec where
  x : ℚ
  y : ℚ
  z : ℚ
  deriving DecidableEq, Repr

/-- Modelled from the spec: `Coor` (absent header), an integer pixel coordinate. -/
structure Coor where
  x : Int
  y : Int
  deriving DecidableEq, Repr

/-- Modelled from the spec: the range type (absent header), "a computed 2D axis-aligned range in
projected space" with corners `min` and `max`. -/
structure Range where
  min : Vec2D
  max : Vec2D
  deriving DecidableEq, Repr

/-- Modelled from the spec: `Component` is declared in an absent header; "`homo` (this image →
reference frame), `homo_inv` (its inverse), owning back-reference to its Image, and a computed 2D
axis-aligned range in projected space". -/
structure Component (H : Type) where
  homo : H
  homo_inv : H
  imgptr : Img
  range : Range

/-- The parts of the bundle `ConnectedImages` that the builders assign: `component` is the memory behind the vector, addressed by a C++
`int`; `trace` is a ghost log of every subscript applied to it. -/
structure ConnectedImages (H : Type) where
  identity_idx : Int
  component : Int → Component H
  trace : List Access

variable {H : Type}

/-- The expression `bundle.component[k].homo` used as an rvalue: logs the subscript. -/
def ConnectedImages.touch (b : ConnectedImages H) (k : Int) : ConnectedImages H :=
  { b with trace := b.trace ++ [Access.read k] }

/-- The assignment `bundle.component[k].homo = h`. -/
def ConnectedImages.set_homo (b : ConnectedImages H) (k : Int) (h : H) : ConnectedImages H :=
  { b with
    component := Function.update b.component k { b.component k with homo := h }
    trace := b.trace ++ [Access.write_homo k] }

/-- The assignment `bundle.component[k].homo_inv = h`. -/
def ConnectedImages.set_homo_inv (b : ConnectedImages H) (k : Int) (h : H) : ConnectedImages H :=
  { b with
    component := Function.update b.component k { b.component k with homo_inv := h }
    trace := b.trace ++ [Access.write_homo_inv k] }

/-- Modelled from the spec: `ConnectedImages::calc_inverse_homo` is absent from the sources; "after
all homographies are set, compute every Component's inverse homography in one pass" over the `n`
entries of the vector. -/
def calc_inverse_homo [Inv H] (n : Nat) (b : ConnectedImages H) : ConnectedImages H :=
  (REP n).foldl (fun b k => (b.touch k).set_homo_inv k ((b.component k).homo)⁻¹) b

/-! ## `Stitcher::build_bundle_linear_simple` -/

/-- Body of the loop `REPL(k, mid + 2, n)`:
`comp[k].homo = comp[k - 1].homo.prod(pairwise_matches[k][k-1].homo)`. -/
def linear_right_step [Mul H] (M : Int → Int → H) (b : ConnectedImages H) (k : Int) :
    ConnectedImages H :=
  (b.touch (k - 1)).set_homo k ((b.component (k - 1)).homo * M k (k - 1))

/-- Body of the loop `REPD(k, mid - 2, 0)`:
`comp[k].homo = comp[k + 1].homo.prod(pairwise_matches[k][k+1].homo)`. -/
def linear_left_step [Mul H] (M : Int → Int → H) (b : ConnectedImages H) (k : Int) :
    ConnectedImages H :=
  (b.touch (k + 1)).set_homo k ((b.component (k + 1)).homo * M k (k + 1))

/-- The function `Stitcher::build_bundle_linear_simple` for `n = imgs.size()` images, where
`M i j = pairwise_matches[i][j].homo` and `b` is the bundle on entry. -/
def build_bundle_linear_simple [Mul H] [One H] [Inv H] (n : Nat) (M : Int → Int → H)
    (b : ConnectedImages H) : ConnectedImages H :=
  let mid : Int := (n : Int) / 2
  let b := { b with identity_idx := mid }
  let b := b.set_homo mid 1
  let b := b.set_homo (mid + 1) (M mid (mid + 1))
  let b := (REPL (mid + 2) n).foldl (linear_right_step M) b
  let b := b.set_homo (mid - 1) (M mid (mid - 1))
  let b := (REPD (mid - 2) 0).foldl (linear_left_step M) b
  calc_inverse_homo n b

/-- The product `M[mid][mid+1] * M[mid+1][mid+2] * … * M[k-1][k]` of the forward pairwise
homographies on the path from `mid` to `k = mid + d + 1`, as the specification words it. -/
def path_right [Mul H] (M : Int → Int → H) (mid : Int) : Nat → H
  | 0 => M mid (mid + 1)
  | d + 1 => path_right M mid d * M (mid + d + 1) (mid + d + 2)

/-- The product `M[mid][mid-1] * M[mid-1][mid-2] * … * M[k+1][k]` of the pairwise homographies on
the path from `mid` down to `k = mid - d - 1`, as the specification words it. -/
def path_left [Mul H] (M : Int → Int → H) (mid : Int) : Nat → H
  | 0 => M mid (mid - 1)
  | d + 1 => path_left M mid d * M (mid - d - 1) (mid - d - 2)

/-! ## A concrete homography type -/

/-- Modelled from the spec: the class `Homography` is absent from the sources; "a 3×3 projective
transform", here with exact rational entries in row-major order. -/
structure Mat3 where
  a00 : ℚ
  a01 : ℚ
  a02 : ℚ
  a10 : ℚ
  a11 : ℚ
  a12 : ℚ
  a20 : ℚ
  a21 : ℚ
  a22 : ℚ
  deriving DecidableEq, Repr

namespace Mat3

/-- Modelled from the spec: `Homography::I()` (absent), the identity matrix. -/
def I : Mat3 := ⟨1, 0, 0, 0, 1, 0, 0, 0, 1⟩

/-- Modelled from the spec: `Matrix::prod` (absent), "composition (product)" of two matrices. -/
def prod (a b : Mat3) : Mat3 :=
  ⟨a.a00 * b.a00 + a.a01 * b.a10 + a.a02 * b.a20,
   a.a00 * b.a01 + a.a01 * b.a11 + a.a02 * b.a21,
   a.a00 * b.a02 + a.a01 * b.a12 + a.a02 * b.a22,
   a.a10 * b.a00 + a.a11 * b.a10 + a.a12 * b.a20,
   a.a10 * b.a01 + a.a11 * b.a11 + a.a12 * b.a21,
   a.a10 * b.a02 + a.a11 * b.a12 + a.a12 * b.a22,
   a.a20 * b.a00 + a.a21 * b.a10 + a.a22 * b.a20,
   a.a20 * b.a01 + a.a21 * b.a11 + a.a22 * b.a21,
   a.a20 * b.a02 + a.a21 * b.a12 + a.a22 * b.a22⟩

/-- The determinant. -/
def det (a : Mat3) : ℚ :=
  a.a00 * (a.a11 * a.a22 - a.a12 * a.a21) - a.a01 * (a.a10 * a.a22 - a.a12 * a.a20)
    + a.a02 * (a.a10 * a.a21 - a.a11 * a.a20)

/-- Modelled from the spec: `Homography::inverse` (absent), "inversion" of a matrix: the adjugate
divided by the determinant. -/
def inverse (a : Mat3) : Mat3 :=
  let d := a.det
  ⟨(a.a11 * a.a22 - a.a12 * a.a21) / d, (a.a02 * a.a21 - a.a01 * a.a22) / d,
   (a.a01 * a.a12 - a.a02 * a.a11) / d,
   (a.a12 * a.a20 - a.a10 * a.a22) / d, (a.a00 * a.a22 - a.a02 * a.a20) / d,
   (a.a02 * a.a10 - a.a00 * a.a12) / d,
   (a.a10 * a.a21 - a.a11 * a.a20) / d, (a.a01 * a.a20 - a.a00 * a.a21) / d,
   (a.a00 * a.a11 - a.a01 * a.a10) / d⟩

instance : One Mat3 := ⟨I⟩
instance : Mul Mat3 := ⟨prod⟩
instance : Inv Mat3 := ⟨inverse⟩

/-- The translation by `(tx, ty)` as a homography. -/
def shift (tx ty : ℚ) : Mat3 := ⟨1, 0, tx, 0, 1, ty, 0, 0, 1⟩

end Mat3

/-- A bundle whose components all hold the identity, with an empty access log. -/
def blank_bundle : ConnectedImages Mat3 :=
  { identity_idx := 0
    component := fun _ => ⟨1, 1, ⟨640, 480⟩, ⟨⟨0, 0⟩, ⟨0, 0⟩⟩⟩
    trace := [] }

/-- Pairwise homographies of a row of images, each shifted by one unit against its left
neighbour: `M i j` translates by `j - i`, and `M j i` is the inverse of `M i j`. -/
def unit_shift_matches (i j : Int) : Mat3 := Mat3.shift ((j - i : Int) : ℚ) 0


/-! ## `Stitcher::assume_pano_pairwise` -/

/-- The ways a run is aborted.  The first three are the calls of `error_exit` in the file, with
the values substituted into each message: `"Image %d and %d doesn't match.\n"`,
`"Failed to find hfactor"` and `"Image %d and %d doesn't match. Failed"`.  The last one is the
uncaught `std::length_error` of `matches.resize(n - 1)` for `n = 0`. -/
inductive ErrorExit where
  | doesnt_match (i next : Int)
  | failed_hfactor
  | doesnt_match_failed (i j : Int)
  | length_error
  deriving DecidableEq, Repr

/-- Modelled from the spec: `MatchInfo` is declared in an absent header; "a homography (3×3
projective matrix), the accepted inlier correspondence count, a confidence score". -/
structure MatchInfo (H : Type) where
  match_size : Nat
  confidence : ℚ
  homo : H
  deriving DecidableEq, Repr

/-- The members `graph` and `pairwise_matches` of `Stitcher`; a slot of `pairwise_matches` that
was never assigned is `none`. -/
structure PairState (H : Type) where
  graph : Int → List Int
  pairwise_matches : Int → Int → Option (MatchInfo H)

/-- The assignment `pairwise_matches[a][b] = v`. -/
def set_match (pm : Int → Int → Option (MatchInfo H)) (a b : Int) (v : MatchInfo H) :
    Int → Int → Option (MatchInfo H) :=
  fun x y => if x = a ∧ y = b then some v else pm x y

/-- The four statements after a successful fit of the pair `(i, next)`:
`graph[i].push_back(next); graph[next].push_back(i); pairwise_matches[i][next] = info;
info.homo = info.homo.inverse(); pairwise_matches[next][i] = move(info)`. -/
def PairState.record [Inv H] (st : PairState H) (i next : Int) (info : MatchInfo H) :
    PairState H :=
  let graph := Function.update st.graph i (st.graph i ++ [next])
  let graph := Function.update graph next (graph next ++ [i])
  let pm := set_match st.pairwise_matches i next info
  let pm := set_match pm next i { info with homo := info.homo⁻¹ }
  { graph := graph, pairwise_matches := pm }

/-- The loop `REP(i, n)` of `assume_pano_pairwise` over the remaining indices; `fit i next` is the
outcome of `FeatureMatcher(feats[i], feats[next]).match()` followed by
`TransformEstimation::get_transform`, with `none` for `succ == false`.  Inside the loop `i + 1` and
`n` are positive, so C++ `%` is `Int` `%`. -/
def pano_loop [Inv H] (n : Nat) (fit : Int → Int → Option (MatchInfo H)) :
    List Int → PairState H → Except ErrorExit (PairState H)
  | [], st => .ok st
  | i :: rest, st =>
    let next := (i + 1) % (n : Int)
    match fit i next with
    | none => .error (ErrorExit.doesnt_match i next)
    | some info => pano_loop n fit rest (st.record i next info)

/-- The function `Stitcher::assume_pano_pairwise` for `n = imgs.size()` images. -/
def assume_pano_pairwise [Inv H] (n : Nat) (fit : Int → Int → Option (MatchInfo H))
    (st : PairState H) : Except ErrorExit (PairState H) :=
  pano_loop n fit (REP n) st

/-- The members `graph` and `pairwise_matches` before any pair was recorded. -/
def PairState.empty : PairState H :=
  { graph := fun _ => [], pairwise_matches := fun _ _ => none }

/-- A fit that succeeds on every pair with the translation by one unit. -/
def shift_fit (_ _ : Int) : Option (MatchInfo Mat3) :=
  some { match_size := 8, confidence := 1, homo := Mat3.shift 1 0 }

/-- A fit that succeeds on every pair except `(1, 2)`. -/
def broken_fit (i next : Int) : Option (MatchInfo Mat3) :=
  if i = 1 ∧ next = 2 then none else shift_fit i next

/-! ## `Stitcher::estimate_camera` -/

/-- Modelled from the spec: `Camera` is declared in an absent header; of its fields only the
"per-image focal length estimate" is assigned here. -/
structure Camera where
  focal : ℚ
  deriving DecidableEq, Repr

/-- The right-hand side `(imgs[i].width() / imgs[i].height()) * 0.5`: the quotient of the two
`int`s is the C++ integer division, which is then converted to `double`. -/
def hack_focal (img : Img) : ℚ :=
  ((img.width.tdiv img.height : Int) : ℚ) * (1 / 2)

/-- The function `Stitcher::estimate_camera`; `focal` is the value returned by the absent
`Camera::estimate_focal(pairwise_matches)`. -/
def estimate_camera (focal : ℚ) (imgs : List Img) (cameras : List Camera) : List Camera :=
  if focal > 0 then
    cameras.map (fun c => { c with focal := focal })
  else
    (REP (imgs.length : Int)).foldl
      (fun cams i =>
        match imgs[i.toNat]? with
        | some img => cams.set i.toNat { focal := hack_focal img }
        | none => cams)
      cameras

/-! ## `Stitcher::blend` -/

/-- A floating-point value as far as the control flow inspects it: a finite number (idealised
as an exact rational), an infinity or a NaN. -/
inductive FloatVal where
  | finite (q : ℚ)
  | pos_inf
  | neg_inf
  | nan
  deriving DecidableEq, Repr

/-- The quotient `y / x` of two finite numbers; a vanishing divisor yields an infinity or a NaN
(the sign of a zero divisor is not modelled). -/
def FloatVal.div (y x : ℚ) : FloatVal :=
  if x = 0 then
    if y = 0 then FloatVal.nan else if 0 < y then FloatVal.pos_inf else FloatVal.neg_inf
  else FloatVal.finite (y / x)

/-- The quotient `y / x` of a finite number by a floating-point value: a NaN divisor yields a
NaN and an infinite divisor yields zero. -/
def FloatVal.rdiv (y : ℚ) : FloatVal → FloatVal
  | .finite x => FloatVal.div y x
  | .pos_inf => .finite 0
  | .neg_inf => .finite 0
  | .nan => .nan

/-- The finite value of a floating-point number; a value that is not finite is represented
by `0`. -/
def FloatVal.to_rat : FloatVal → ℚ
  | .finite q => q
  | _ => 0

/-- Truncation toward zero, the conversion `double → int` of a finite value whose integral part
fits in an `int`. -/
def trunc (q : ℚ) : Int := q.num.tdiv (q.den : Int)

/-- The constant `INT_MIN` of a 32-bit `int`. -/
def INT_MIN : Int := -2147483648

/-- The constant `INT_MAX` of a 32-bit `int`. -/
def INT_MAX : Int := 2147483647

/-- The conversion `double → int` performed by `Coor size(target_width, target_height)`:
truncation toward zero when the result fits in an `int`.  For every other value (out of range,
an infinity, a NaN) the language leaves the conversion undefined; the model takes the value that
the conversion instruction of x86-64 delivers, `INT_MIN`. -/
def FloatVal.to_int : FloatVal → Int
  | .finite q => if INT_MIN ≤ trunc q ∧ trunc q ≤ INT_MAX then trunc q else INT_MIN
  | _ => INT_MIN

/-- The locals of `blend` that fix the canvas. -/
structure Canvas where
  x_per_pixel : FloatVal
  y_per_pixel : FloatVal
  target_width : FloatVal
  target_height : FloatVal
  size : Coor
  deriving DecidableEq, Repr

/-- Lines 119–132 of `blend`: the canvas geometry from the projection `homo2proj`
(`bundle.get_homo2proj()`), the size `refw × refh` of the identity image and
`bundle.proj_range`.  The corners of the range and the values of `homo2proj` are finite; the two
divisions follow the floating-point rules for a vanishing divisor, and `size` is the conversion
of the targets to `int`. -/
def blend_canvas (homo2proj : Vec → Vec2D) (refw refh : Int) (proj_range : Range) : Canvas :=
  let a := homo2proj ⟨1, 1, 1⟩
  let b := homo2proj ⟨0, 0, 1⟩
  let id_img_range : Vec2D := ⟨(a.x - b.x) * refw, (a.y - b.y) * refh⟩
  let proj_min := proj_range.min
  let x_len := proj_range.max.x - proj_min.x
  let y_len := proj_range.max.y - proj_min.y
  let x_per_pixel := FloatVal.div id_img_range.x refw
  let y_per_pixel := FloatVal.div id_img_range.y refh
  let target_width := FloatVal.rdiv x_len x_per_pixel
  let target_height := FloatVal.rdiv y_len y_per_pixel
  { x_per_pixel := x_per_pixel, y_per_pixel := y_per_pixel
    target_width := target_width, target_height := target_height
    size := ⟨target_width.to_int, target_height.to_int⟩ }

/-- The lambda `scale_coor_to_img_coor` of `blend`. -/
def scale_coor_to_img_coor (proj_min : Vec2D) (x_per_pixel y_per_pixel : ℚ) (v : Vec2D) : Coor :=
  ⟨trunc ((v.x - proj_min.x) / x_per_pixel), trunc ((v.y - proj_min.y) / y_per_pixel)⟩

/-- The environment of the pixel loop of `blend`: the inverse projection `proj2homo`
(`bundle.get_proj2homo()`), the point transform `trans_normalize` of a homography (absent
header), the reference size, the pixel density and `proj_min`.  A position is `Option Vec2D`:
modelled from the spec, the absent `Vec2D::NaN()` / `isNaN()` are "a sentinel not-a-number
position", here `none`. -/
structure BlendEnv (H : Type) where
  proj2homo : Vec2D → Vec
  trans_normalize : H → Vec → Option Vec2D
  refw : Int
  refh : Int
  x_per_pixel : ℚ
  y_per_pixel : ℚ
  proj_min : Vec2D

/-- Lines 154–160 of `blend`: the source coordinate computed for the destination pixel `(i, j)`
of the component `cur` placed at `top_left`, before the bounds test. -/
def computed_pos (env : BlendEnv H) (cur : Component H) (top_left : Coor) (i j : Int) :
    Option Vec2D :=
  let c : Vec2D := ⟨(j + top_left.x) * env.x_per_pixel + env.proj_min.x,
                    (i + top_left.y) * env.y_per_pixel + env.proj_min.y⟩
  let homo := env.proj2homo ⟨c.x / env.refw, c.y / env.refh⟩
  let homo : Vec := ⟨homo.x - 1 / 2 * homo.z, homo.y - 1 / 2 * homo.z, homo.z⟩
  let homo : Vec := ⟨homo.x * env.refw, homo.y * env.refh, homo.z⟩
  (env.trans_normalize cur.homo_inv homo).map
    (fun q => ⟨q.x + (cur.imgptr.width.tdiv 2 : Int), q.y + (cur.imgptr.height.tdiv 2 : Int)⟩)

/-- Lines 161–163 of `blend`:
`if (!p.isNaN() && (p.x < 0 || p.x >= width || p.y < 0 || p.y >= height)) p = Vec2D::NaN()`. -/
def clip_to_image (img : Img) : Option Vec2D → Option Vec2D
  | none => none
  | some p =>
    if p.x < 0 ∨ p.x ≥ img.width ∨ p.y < 0 ∨ p.y ≥ img.height then none else some p

/-- One layer handed to `blender.add_image(top_left, orig_pos, *cur.imgptr)`; `orig_pos` is
stored by rows. -/
structure Layer where
  top_left : Coor
  orig_pos : List (List (Option Vec2D))
  img : Img

/-- The element `orig_pos.at(i, j)`. -/
def Layer.at (l : Layer) (i j : Int) : Option (Option Vec2D) :=
  match l.orig_pos[i.toNat]? with
  | some row => row[j.toNat]?
  | none => none

/-- The placement rectangle of a component on the canvas: the locals `top_left`, `w` and `h` of
the loop `for (auto& cur : bundle.component)` of `blend`. -/
structure Placement where
  top_left : Coor
  w : Int
  h : Int
  deriving DecidableEq, Repr

/-- Lines 147–150 of `blend`. -/
def placement (env : BlendEnv H) (cur : Component H) : Placement :=
  let top_left := scale_coor_to_img_coor env.proj_min env.x_per_pixel env.y_per_pixel cur.range.min
  let bottom_right :=
    scale_coor_to_img_coor env.proj_min env.x_per_pixel env.y_per_pixel cur.range.max
  { top_left := top_left, w := bottom_right.x - top_left.x, h := bottom_right.y - top_left.y }

/-- The body of the loop `for (auto& cur : bundle.component)` of `blend`: the rows of `orig_pos`
filled by `REP(i, h) REP(j, w)` and the arguments of `blender.add_image`. -/
def blend_component (env : BlendEnv H) (cur : Component H) : Layer :=
  let pl := placement env cur
  { top_left := pl.top_left
    orig_pos := (REP pl.h).map (fun i =>
      (REP pl.w).map (fun j => clip_to_image cur.imgptr (computed_pos env cur pl.top_left i j)))
    img := cur.imgptr }

/-- The environment in which `blend` runs its pixel loops.  The pixel loops are modelled in
exact arithmetic, with the finite value of the pixel density. -/
def blend_env (homo2proj : Vec → Vec2D) (proj2homo : Vec2D → Vec)
    (trans_normalize : H → Vec → Option Vec2D) (ref : Img) (proj_range : Range) : BlendEnv H :=
  let canvas := blend_canvas homo2proj ref.width ref.height proj_range
  { proj2homo := proj2homo, trans_normalize := trans_normalize
    refw := ref.width, refh := ref.height
    x_per_pixel := canvas.x_per_pixel.to_rat, y_per_pixel := canvas.y_per_pixel.to_rat
    proj_min := proj_range.min }

/-- The function `Stitcher::blend` up to the call of `blender.run`: the canvas size and the layers handed to
the blender, one per component; `ref` is the image `imgs[bundle.identity_idx]`. -/
def blend (homo2proj : Vec → Vec2D) (proj2homo : Vec2D → Vec)
    (trans_normalize : H → Vec → Option Vec2D) (ref : Img) (proj_range : Range)
    (component : List (Component H)) : Coor × List Layer :=
  ((blend_canvas homo2proj ref.width ref.height proj_range).size,
   component.map
     (blend_component (blend_env homo2proj proj2homo trans_normalize ref proj_range)))

/-- Modelled from the spec: the flat projection `homo2proj` (absent header), the perspective
division of a homogeneous triple. -/
def flat_homo2proj (v : Vec) : Vec2D := ⟨v.x / v.z, v.y / v.z⟩

/-- Modelled from the spec: `Homography::trans_normalize` (absent header) for `Mat3`, the "point
transform (2D-normalized variant)"; the result is undefined when the third coordinate
vanishes. -/
def Mat3.trans_normalize (m : Mat3) (v : Vec) : Option Vec2D :=
  let x := m.a00 * v.x + m.a01 * v.y + m.a02 * v.z
  let y := m.a10 * v.x + m.a11 * v.y + m.a12 * v.z
  let z := m.a20 * v.x + m.a21 * v.y + m.a22 * v.z
  if z = 0 then none else some ⟨x / z, y / z⟩

/-- Every filled slot of `pairwise_matches` has a filled mirror slot, and the two homographies
are two-sided inverses of each other. -/
def PairState.inverse_pairs [Mul H] [One H] (st : PairState H) : Prop :=
  ∀ a b f, st.pairwise_matches a b = some f →
    ∃ r, st.pairwise_matches b a = some r ∧ r.homo * f.homo = 1 ∧ f.homo * r.homo = 1

/-! ## `Stitcher::update_h_factor` and `Stitcher::build_bundle_warp` -/

/-- The function `fabs`. -/
def FloatVal.fabs : FloatVal → FloatVal
  | .finite q => .finite |q|
  | .pos_inf => .pos_inf
  | .neg_inf => .pos_inf
  | .nan => .nan

/-- The comparison `s < m` with a finite right-hand side; it is false on a NaN. -/
def FloatVal.lt (s : FloatVal) (m : ℚ) : Bool :=
  match s with
  | .finite q => decide (q < m)
  | .pos_inf => false
  | .neg_inf => true
  | .nan => false

/-- The constant `numeric_limits<float>::max()`, equal to `(2^24 - 1) * 2^104`. -/
def FLT_MAX : ℚ := 340282346638528859811704183484516925440

/-- The reference arguments `minslope`, `bestfactor` and `mat` (the caller's `bestmat`) of
`update_h_factor`, together with a ghost log `trials` of the factors it was called with. -/
structure WarpSearch (H : Type) where
  minslope : ℚ
  bestfactor : ℚ
  mat : List H
  trials : List ℚ

/-- The parts of the warp search that live outside the file: `fit_warped f j` is the homography
that `TransformEstimation(matches[j], ·, ·).get_transform` fits for the adjacent pair `(j, j+1)`
on the features warped by `CylinderWarper(f)` (`none` for `succ == false`); `fit_reverse f i` is the
one fitted from the reversed `matches[i]` for the pair `(i+1, i)`; `trans2d h` is
`h.trans2d(0, 0)`; `slope_plain` is the constant `SLOPE_PLAIN`. -/
structure WarpEnv (H : Type) where
  fit_warped : ℚ → Int → Option H
  fit_reverse : ℚ → Int → Option H
  trans2d : H → Vec2D
  slope_plain : ℚ

/-- The running products written by `nowmat[k] = nowmat[k - 1].prod(nowmat[k])` after the slot
holding `acc`. -/
def compose_from [Mul H] (acc : H) : List H → List H
  | [] => []
  | h :: rest => (acc * h) :: compose_from (acc * h) rest

/-- The loop `REPL(k, 1, len - 1) nowmat[k] = nowmat[k - 1].prod(nowmat[k])`. -/
def compose_chain [Mul H] : List H → List H
  | [] => []
  | h :: rest => h :: compose_from h rest

/-- The results `info.homo` of the fitting loop of `update_h_factor` if none of them failed. -/
def collect_fits : List (Option H) → Option (List H)
  | [] => some []
  | none :: _ => none
  | some h :: rest => (collect_fits rest).map (fun hs => h :: hs)

/-- Lines 271–302 of `update_h_factor`: the composed chain `nowmat` of the trial with factor
`nowfactor`, or `none` when a fit failed (`failed == true`). -/
def trial_chain [Mul H] (env : WarpEnv H) (n : Nat) (mid : Int) (nowfactor : ℚ) :
    Option (List H) :=
  let len : Int := (n : Int) - mid
  (collect_fits ((REPL 1 len).map (fun k => env.fit_warped nowfactor (k - 1 + mid)))).map
    compose_chain

/-- Lines 304–305 of `update_h_factor`: `center2.y / center2.x` for
`center2 = nowmat.back().trans2d(0, 0)`. -/
def chain_slope (env : WarpEnv H) (last : H) : FloatVal :=
  FloatVal.div (env.trans2d last).y (env.trans2d last).x

/-- The function `Stitcher::update_h_factor`: returns the slope and the updated reference arguments.  The
absent helper `update_min(dest, val)` is modelled from the spec ("track the factor minimizing
`|slope|` seen so far"): it stores `val` and returns true exactly when `val < dest`.  The case of
an empty `nowmat` does not arise, the only caller guarding with `n - mid > 1`. -/
def update_h_factor [Mul H] (env : WarpEnv H) (n : Nat) (mid : Int) (nowfactor : ℚ)
    (s : WarpSearch H) : FloatVal × WarpSearch H :=
  let s := { s with trials := s.trials ++ [nowfactor] }
  match trial_chain env n mid nowfactor with
  | none => (FloatVal.finite 0, s)
  | some nowmat =>
    match nowmat.getLast? with
    | none => (FloatVal.nan, s)
    | some last =>
      let slope := chain_slope env last
      match slope.fabs with
      | .finite a =>
        if a < s.minslope then
          (slope, { s with minslope := a, bestfactor := nowfactor, mat := nowmat })
        else (slope, s)
      | _ => (slope, s)

/-- The update `newfactor += (slope < 0 ? order : -order) / (5 * pow(2, k))`. -/
def next_factor (order : ℚ) (k : Nat) (newfactor : ℚ) (slope : FloatVal) : ℚ :=
  newfactor + (if slope.lt 0 then order else -order) / (5 * 2 ^ k)

/-- The loop `REP(k, 3)` of `build_bundle_warp` with `rounds` iterations left, `k` the current
round:
`if (fabs(slope) < SLOPE_PLAIN) break;
 newfactor += (slope < 0 ? order : -order) / (5 * pow(2, k));
 slope = update_h_factor(newfactor, minslope, bestfactor, bestmat, matches)`. -/
def refine_factor [Mul H] (env : WarpEnv H) (n : Nat) (mid : Int) (order : ℚ) :
    Nat → Nat → ℚ → FloatVal → WarpSearch H → WarpSearch H
  | 0, _, _, _, s => s
  | rounds + 1, k, newfactor, slope, s =>
    if slope.fabs.lt env.slope_plain then s
    else
      refine_factor env n mid order rounds (k + 1) (next_factor order k newfactor slope)
        (update_h_factor env n mid (next_factor order k newfactor slope) s).1
        (update_h_factor env n mid (next_factor order k newfactor slope) s).2

/-- Lines 224–241 of `build_bundle_warp`: the warp-factor search with a budget of `rounds`
refinement rounds. -/
def warp_search [Mul H] (env : WarpEnv H) (rounds : Nat) (n : Nat) :
    Except ErrorExit (WarpSearch H) :=
  let mid : Int := (n : Int) / 2
  let s : WarpSearch H := { minslope := FLT_MAX, bestfactor := 1, mat := [], trials := [] }
  if (n : Int) - mid > 1 then
    let newfactor : ℚ := 1
    let r := update_h_factor env n mid newfactor s
    match r.2.mat with
    | [] => .error ErrorExit.failed_hfactor
    | first :: _ =>
      let centerx1 : ℚ := 0
      let centerx2 := (env.trans2d first).x
      let order : ℚ := if centerx2 > centerx1 then 1 else -1
      .ok (refine_factor env n mid order rounds 0 newfactor r.1 r.2)
  else .ok s

/-- The loop `REPD(i, mid - 1, 0)` of `build_bundle_warp` over the remaining indices, run in
index order: the reverse fit of the pair `(i+1, i)` on the finally warped features, stored in
`component[i].homo`, or the abort. -/
def reverse_fit_loop (env : WarpEnv H) (bestfactor : ℚ) :
    List Int → ConnectedImages H → Except ErrorExit (ConnectedImages H)
  | [], b => .ok b
  | i :: rest, b =>
    match env.fit_reverse bestfactor i with
    | none => .error (ErrorExit.doesnt_match_failed i (i + 1))
    | some h => reverse_fit_loop env bestfactor rest (b.set_homo i h)

/-- Body of the loop `REPD(i, mid - 2, 0)` of `build_bundle_warp`:
`component[i].homo = component[i + 1].homo.prod(component[i].homo)`. -/
def warp_left_step [Mul H] (b : ConnectedImages H) (i : Int) : ConnectedImages H :=
  ((b.touch (i + 1)).touch i).set_homo i ((b.component (i + 1)).homo * (b.component i).homo)

/-- The element `bestmat[j]` read by `move(bestmat[k - mid - 1])`.  The index is in range
whenever the loop that reads it runs; `1` stands in for an element that does not exist. -/
def chain_at [One H] (mat : List H) (j : Int) : H :=
  match mat[j.toNat]? with
  | some h => h
  | none => 1

/-- The function `Stitcher::build_bundle_warp` with a budget of `rounds` refinement rounds (the file has
`rounds = 3`): the bundle and the final search state (`bestfactor`, `minslope`, `bestmat`), or the
abort.  The feature matching and the final warp of all images are folded into `env`. -/
def build_bundle_warp_rounds [Mul H] [One H] [Inv H] (env : WarpEnv H) (rounds : Nat) (n : Nat)
    (b : ConnectedImages H) : Except ErrorExit (ConnectedImages H × WarpSearch H) :=
  let mid : Int := (n : Int) / 2
  let b := { b with identity_idx := mid }
  let b := (REP n).foldl (fun b i => b.set_homo i 1) b
  if (n : Int) - 1 < 0 then .error ErrorExit.length_error
  else
    match warp_search env rounds n with
    | .error e => .error e
    | .ok s =>
      let b := (REPL (mid + 1) n).foldl (fun b k => b.set_homo k (chain_at s.mat (k - mid - 1))) b
      match reverse_fit_loop env s.bestfactor (REPD (mid - 1) 0) b with
      | .error e => .error e
      | .ok b =>
        let b := (REPD (mid - 2) 0).foldl warp_left_step b
        .ok (calc_inverse_homo n b, s)

/-- The function `Stitcher::build_bundle_warp`, with the three refinement rounds of the file. -/
def build_bundle_warp [Mul H] [One H] [Inv H] (env : WarpEnv H) (n : Nat)
    (b : ConnectedImages H) : Except ErrorExit (ConnectedImages H × WarpSearch H) :=
  build_bundle_warp_rounds env 3 n b

/-- The left-associated product `((h₁ * h₂) * …) * hₘ` of a chain of homographies, as the
specification words "prefix product". -/
def chain_prod [Mul H] [One H] : List H → H
  | [] => 1
  | h :: rest => rest.foldl (· * ·) h

/-- Modelled from the spec: `Homography::trans2d(0, 0)` (absent header) for `Mat3`, the image of
the origin under the "point transform". -/
def Mat3.trans2d (m : Mat3) : Vec2D := ⟨m.a02 / m.a22, m.a12 / m.a22⟩

/-- A warp environment in which every forward fit at factor `f` is the translation by
`(1, f - 11/10)`, so that the slope of a trial is `f - 11/10`, and every reverse fit is the
translation by `(-1, 0)`. -/
def drift_env : WarpEnv Mat3 :=
  { fit_warped := fun f _ => some (Mat3.shift 1 (f - 11 / 10))
    fit_reverse := fun _ _ => some (Mat3.shift (-1) 0)
    trans2d := Mat3.trans2d
    slope_plain := 1 / 125 }

/-- A warp environment in which every fit fails. -/
def failing_env : WarpEnv Mat3 :=
  { fit_warped := fun _ _ => none
    fit_reverse := fun _ _ => none
    trans2d := Mat3.trans2d
    slope_plain := 1 / 125 }

/-- The best factor was passed to `update_h_factor`, the trial with that factor is valid, `mat`
is its composed chain and `minslope` is the `|slope|` of that chain. -/
def WarpSearch.best_is_trialed [Mul H] (env : WarpEnv H) (n : Nat) (mid : Int)
    (s : WarpSearch H) : Prop :=
  s.bestfactor ∈ s.trials
    ∧ ∃ chain last, trial_chain env n mid s.bestfactor = some chain ∧ s.mat = chain
        ∧ chain.getLast? = some last ∧ (chain_slope env last).fabs = FloatVal.finite s.minslope

/-- No valid trial that was run has a `|slope|` below `minslope`. -/
def WarpSearch.is_minimal [Mul H] (env : WarpEnv H) (n : Nat) (mid : Int)
    (s : WarpSearch H) : Prop :=
  ∀ f ∈ s.trials, ∀ chain last, trial_chain env n mid f = some chain →
    chain.getLast? = some last → (chain_slope env last).fabs.lt s.minslope = false

/-! ## Theorems -/

section LoopLemmas

theorem mem_REPL {a b k : Int} : k ∈ REPL a b ↔ a ≤ k ∧ k < b := by
  unfold REPL
  simp only [List.mem_map, List.mem_range]
  constructor
  · rintro ⟨d, hd, rfl⟩
    omega
  · intro h
    exact ⟨(k - a).toNat, by omega, by omega⟩

theorem mem_REP {n k : Int} : k ∈ REP n ↔ 0 ≤ k ∧ k < n := mem_REPL

theorem mem_REPD {a b k : Int} : k ∈ REPD a b ↔ b ≤ k ∧ k ≤ a := by
  unfold REPD
  simp only [List.mem_map, List.mem_range]
  constructor
  · rintro ⟨d, hd, rfl⟩
    omega
  · intro h
    exact ⟨(a - k).toNat, by omega, by omega⟩

theorem nodup_REPL (a b : Int) : (REPL a b).Nodup := by
  unfold REPL
  refine List.Nodup.map ?_ (List.nodup_range _)
  intro x y h
  simp only at h
  omega

theorem nodup_REPD (a b : Int) : (REPD a b).Nodup := by
  unfold REPD
  refine List.Nodup.map ?_ (List.nodup_range _)
  intro x y h
  simp only at h
  omega

theorem REPL_succ {a b : Int} (h : a < b) : REPL a b = a :: REPL (a + 1) b := by
  unfold REPL
  obtain ⟨m, hm⟩ : ∃ m : Nat, (b - a).toNat = m + 1 := ⟨(b - a).toNat - 1, by omega⟩
  have hm2 : (b - (a + 1)).toNat = m := by omega
  rw [hm, hm2, List.range_succ_eq_map]
  simp only [List.map_cons, List.map_map, Nat.cast_zero, add_zero, List.cons.injEq, true_and]
  apply List.map_congr_left
  intro d _
  simp only [Function.comp_apply, Nat.cast_succ]
  omega

theorem REPL_empty {a b : Int} (h : b ≤ a) : REPL a b = [] := by
  unfold REPL
  have : (b - a).toNat = 0 := by omega
  rw [this]
  rfl

theorem REPD_succ {a b : Int} (h : b ≤ a) : REPD a b = a :: REPD (a - 1) b := by
  unfold REPD
  obtain ⟨m, hm⟩ : ∃ m : Nat, (a - b + 1).toNat = m + 1 := ⟨(a - b + 1).toNat - 1, by omega⟩
  have hm2 : (a - 1 - b + 1).toNat = m := by omega
  rw [hm, hm2, List.range_succ_eq_map]
  simp only [List.map_cons, List.map_map, Nat.cast_zero, sub_zero, List.cons.injEq, true_and]
  apply List.map_congr_left
  intro d _
  simp only [Function.comp_apply, Nat.cast_succ]
  omega

theorem REPD_empty {a b : Int} (h : a < b) : REPD a b = [] := by
  unfold REPD
  have : (a - b + 1).toNat = 0 := by omega
  rw [this]
  rfl

end LoopLemmas

section TraceLemmas

variable {H : Type}

/-- A loop whose body appends the events `ev k` to the log appends `ev` of every index. -/
theorem foldl_trace (step : ConnectedImages H → Int → ConnectedImages H) (ev : Int → List Access)
    (hstep : ∀ b k, (step b k).trace = b.trace ++ ev k) (l : List Int) (b : ConnectedImages H) :
    (l.foldl step b).trace = b.trace ++ l.flatMap ev := by
  induction l generalizing b with
  | nil => simp
  | cons k l ih => simp [List.foldl_cons, ih, hstep, List.append_assoc]

/-- The access log of `build_bundle_linear_simple`, in program order. -/
theorem linear_simple_trace [Mul H] [One H] [Inv H] (n : Nat) (M : Int → Int → H)
    (b : ConnectedImages H) :
    (build_bundle_linear_simple n M b).trace =
      b.trace ++ [Access.write_homo ((n : Int) / 2), Access.write_homo ((n : Int) / 2 + 1)]
        ++ (REPL ((n : Int) / 2 + 2) n).flatMap (fun k => [Access.read (k - 1), Access.write_homo k])
        ++ [Access.write_homo ((n : Int) / 2 - 1)]
        ++ (REPD ((n : Int) / 2 - 2) 0).flatMap (fun k => [Access.read (k + 1), Access.write_homo k])
        ++ (REP n).flatMap (fun k => [Access.read k, Access.write_homo_inv k]) := by
  unfold build_bundle_linear_simple calc_inverse_homo
  simp only []
  rw [foldl_trace _ (fun k => [Access.read k, Access.write_homo_inv k])
        (fun b k => by simp [ConnectedImages.set_homo_inv, ConnectedImages.touch])]
  rw [foldl_trace _ (fun k => [Access.read (k + 1), Access.write_homo k])
        (fun b k => by simp [linear_left_step, ConnectedImages.set_homo, ConnectedImages.touch])]
  simp only [ConnectedImages.set_homo]
  rw [foldl_trace _ (fun k => [Access.read (k - 1), Access.write_homo k])
        (fun b k => by simp [linear_right_step, ConnectedImages.set_homo, ConnectedImages.touch])]
  simp [List.append_assoc]

theorem count_write_flatMap (f : Int → Int) (l : List Int) (k : Int) :
    (l.flatMap (fun j => [Access.read (f j), Access.write_homo j])).count (Access.write_homo k)
      = l.count k := by
  induction l with
  | nil => simp
  | cons j l ih =>
    simp only [List.flatMap_cons, List.count_append, ih, List.count_cons, List.count_nil]
    by_cases h : j = k <;> simp [h, Nat.add_comm]

theorem count_write_inv_flatMap (l : List Int) (k : Int) :
    (l.flatMap (fun j => [Access.read j, Access.write_homo_inv j])).count (Access.write_homo k)
      = 0 := by
  induction l with
  | nil => simp
  | cons j l ih =>
    simp only [List.flatMap_cons, List.count_append, ih, List.count_cons, List.count_nil]
    simp

theorem count_REPL (a b k : Int) : (REPL a b).count k = if a ≤ k ∧ k < b then 1 else 0 := by
  split
  · exact List.count_eq_one_of_mem (nodup_REPL a b) (mem_REPL.2 ‹_›)
  · exact List.count_eq_zero_of_not_mem (fun h => ‹¬ _› (mem_REPL.1 h))

theorem count_REPD (a b k : Int) : (REPD a b).count k = if b ≤ k ∧ k ≤ a then 1 else 0 := by
  split
  · exact List.count_eq_one_of_mem (nodup_REPD a b) (mem_REPD.2 ‹_›)
  · exact List.count_eq_zero_of_not_mem (fun h => ‹¬ _› (mem_REPD.1 h))

end TraceLemmas

/-- C10: with an empty access log on entry, `build_bundle_linear_simple` subscripts
`bundle.component` only inside `[0, n)` exactly when `n ≥ 3`; for `n ≥ 3` every `homo` with index
in `[0, n)` is assigned exactly once; for `n = 1` and `n = 2` it assigns `component[mid + 1]` with
`mid + 1 ≥ n`, and for `n = 1` also `component[-1]`. -/
theorem build_bundle_linear_simple_bounds {H : Type} [Mul H] [One H] [Inv H] (n : Nat)
    (M : Int → Int → H) (b : ConnectedImages H) (hb : b.trace = []) :
    ((∀ a ∈ (build_bundle_linear_simple n M b).trace, 0 ≤ a.index ∧ a.index < n) ↔ 3 ≤ n)
    ∧ (3 ≤ n → ∀ k : Int, 0 ≤ k → k < n →
        (build_bundle_linear_simple n M b).trace.count (Access.write_homo k) = 1)
    ∧ (n = 1 ∨ n = 2 →
        Access.write_homo ((n : Int) / 2 + 1) ∈ (build_bundle_linear_simple n M b).trace
          ∧ (n : Int) ≤ (n : Int) / 2 + 1)
    ∧ (n = 1 → Access.write_homo (-1) ∈ (build_bundle_linear_simple n M b).trace) := by
  rw [linear_simple_trace, hb]
  refine ⟨⟨?_, ?_⟩, ?_, ?_, ?_⟩
  · intro h
    by_contra hn
    have := h (Access.write_homo ((n : Int) / 2 + 1)) (by simp)
    simp only [Access.index] at this
    omega
  · intro hn a ha
    simp only [List.nil_append, List.mem_append, List.mem_cons, List.mem_singleton,
      List.mem_flatMap, mem_REPL, mem_REPD, mem_REP, List.not_mem_nil, or_false] at ha
    rcases ha with ((((rfl | rfl) | ⟨k, hk, rfl | rfl⟩) | rfl) | ⟨k, hk, rfl | rfl⟩) |
      ⟨k, hk, rfl | rfl⟩ <;> simp only [Access.index] <;> omega
  · intro hn k hk0 hkn
    simp only [List.nil_append, List.count_append, count_write_flatMap, count_write_inv_flatMap,
      count_REPL, count_REPD, List.count_cons, List.count_nil, beq_iff_eq, Access.write_homo.injEq]
    split_ifs <;> omega
  · intro hn
    refine ⟨by simp, by omega⟩
  · intro hn
    subst hn
    simp

section PanoLemmas

variable {H : Type} [Inv H]

/-- The loop succeeds exactly when every remaining fit succeeds. -/
theorem pano_loop_ok_iff (n : Nat) (fit : Int → Int → Option (MatchInfo H)) (l : List Int)
    (st : PairState H) :
    (∃ st', pano_loop n fit l st = .ok st') ↔ ∀ i ∈ l, fit i ((i + 1) % (n : Int)) ≠ none := by
  induction l generalizing st with
  | nil => simp [pano_loop]
  | cons i l ih =>
    simp only [pano_loop, List.mem_cons, forall_eq_or_imp]
    cases hfit : fit i ((i + 1) % (n : Int)) with
    | none => simp
    | some info => simpa using ih (st.record i ((i + 1) % (n : Int)) info)

/-- A failing loop over `a, a+1, …, b-1` reports the first failing pair. -/
theorem pano_loop_error (n : Nat) (fit : Int → Int → Option (MatchInfo H)) (b : Int) (m : Nat) :
    ∀ (a : Int) (st : PairState H) (e : ErrorExit), (b - a).toNat = m →
      pano_loop n fit (REPL a b) st = .error e →
      ∃ i, e = ErrorExit.doesnt_match i ((i + 1) % (n : Int)) ∧ a ≤ i ∧ i < b
        ∧ fit i ((i + 1) % (n : Int)) = none
        ∧ ∀ j, a ≤ j → j < i → fit j ((j + 1) % (n : Int)) ≠ none := by
  induction m with
  | zero =>
    intro a st e hm h
    rw [REPL_empty (by omega)] at h
    simp [pano_loop] at h
  | succ m ih =>
    intro a st e hm h
    rw [REPL_succ (by omega)] at h
    simp only [pano_loop] at h
    cases hfit : fit a ((a + 1) % (n : Int)) with
    | none =>
      rw [hfit] at h
      simp only [Except.error.injEq] at h
      exact ⟨a, h.symm, le_refl a, by omega, hfit, fun j h1 h2 => by omega⟩
    | some info =>
      rw [hfit] at h
      obtain ⟨i, he, hai, hib, hnone, hfirst⟩ := ih (a + 1) _ e (by omega) h
      refine ⟨i, he, by omega, hib, hnone, fun j h1 h2 => ?_⟩
      by_cases hj : j = a
      · subst hj
        simp [hfit]
      · exact hfirst j (by omega) h2

/-- A property that every recording step preserves holds after a successful loop. -/
theorem pano_loop_preserves (n : Nat) (fit : Int → Int → Option (MatchInfo H))
    (P : PairState H → Prop) (l : List Int)
    (hstep : ∀ (st : PairState H) i info, i ∈ l → fit i ((i + 1) % (n : Int)) = some info → P st →
      P (st.record i ((i + 1) % (n : Int)) info))
    (st st' : PairState H) (h0 : P st) (h : pano_loop n fit l st = .ok st') : P st' := by
  induction l generalizing st with
  | nil =>
    simp only [pano_loop, Except.ok.injEq] at h
    exact h ▸ h0
  | cons i l ih =>
    simp only [pano_loop] at h
    cases hfit : fit i ((i + 1) % (n : Int)) with
    | none => rw [hfit] at h; cases h
    | some info =>
      rw [hfit] at h
      exact ih (fun s j info hj hf hp => hstep s j info (List.mem_cons_of_mem _ hj) hf hp) _
        (hstep st i info (List.mem_cons_self _ _) hfit h0) h

/-- A property that the step of index `i0` establishes and every step preserves holds after a
successful loop over a list containing `i0`. -/
theorem pano_loop_establishes (n : Nat) (fit : Int → Int → Option (MatchInfo H))
    (Q : PairState H → Prop) (i0 : Int)
    (hest : ∀ (st : PairState H) info, Q (st.record i0 ((i0 + 1) % (n : Int)) info))
    (hkeep : ∀ (st : PairState H) i info, Q st → Q (st.record i ((i + 1) % (n : Int)) info))
    (l : List Int) (hi0 : i0 ∈ l) (st st' : PairState H)
    (h : pano_loop n fit l st = .ok st') : Q st' := by
  induction l generalizing st with
  | nil => cases hi0
  | cons i l ih =>
    simp only [pano_loop] at h
    cases hfit : fit i ((i + 1) % (n : Int)) with
    | none => rw [hfit] at h; cases h
    | some info =>
      rw [hfit] at h
      rcases List.mem_cons.1 hi0 with rfl | hmem
      · exact pano_loop_preserves n fit Q l (fun st j info _ _ hq => hkeep st j info hq) _ _
          (hest st info) h
      · exact ih hmem _ h

/-- What one recording step leaves in the two slots and the two adjacency lists of its pair. -/
theorem record_slots (st : PairState H) (i next : Int) (info : MatchInfo H) :
    ((st.record i next info).pairwise_matches i next).isSome = true
      ∧ ((st.record i next info).pairwise_matches next i).isSome = true
      ∧ next ∈ (st.record i next info).graph i ∧ i ∈ (st.record i next info).graph next := by
  refine ⟨?_, ?_, ?_, ?_⟩
  · simp only [PairState.record, set_match]
    by_cases h : i = next
    · subst h; simp
    · simp [h]
  · simp [PairState.record, set_match]
  · simp only [PairState.record]
    by_cases h : i = next
    · subst h; simp
    · simp [Function.update_noteq h]
  · simp [PairState.record]

/-- A recording step never empties a slot and never removes an edge. -/
theorem record_monotone (st : PairState H) (i next : Int) (info : MatchInfo H) (a b : Int) :
    ((st.pairwise_matches a b).isSome = true →
        ((st.record i next info).pairwise_matches a b).isSome = true)
      ∧ (b ∈ st.graph a → b ∈ (st.record i next info).graph a) := by
  constructor
  · intro h
    simp only [PairState.record, set_match]
    split_ifs <;> simp [h]
  · intro h
    simp only [PairState.record, Function.update_apply]
    split_ifs <;> simp_all

end PanoLemmas

/-- C7: `assume_pano_pairwise` aborts exactly when the fit of some pair `(i, (i+1) mod n)`,
`0 ≤ i < n`, fails; the message of the abort carries the indices of the first failing pair in
index order; and when no fit fails both slots of every such pair are filled and the graph holds
the edge in both directions. -/
theorem assume_pano_pairwise_abort {H : Type} [Inv H] (n : Nat)
    (fit : Int → Int → Option (MatchInfo H)) (st : PairState H) :
    ((∃ e, assume_pano_pairwise n fit st = .error e)
        ↔ ∃ i : Int, 0 ≤ i ∧ i < n ∧ fit i ((i + 1) % (n : Int)) = none)
    ∧ (∀ e, assume_pano_pairwise n fit st = .error e →
        ∃ i : Int, e = ErrorExit.doesnt_match i ((i + 1) % (n : Int)) ∧ 0 ≤ i ∧ i < n
          ∧ fit i ((i + 1) % (n : Int)) = none
          ∧ ∀ j : Int, 0 ≤ j → j < i → fit j ((j + 1) % (n : Int)) ≠ none)
    ∧ (∀ st', assume_pano_pairwise n fit st = .ok st' →
        ∀ i : Int, 0 ≤ i → i < n →
          (st'.pairwise_matches i ((i + 1) % (n : Int))).isSome = true
          ∧ (st'.pairwise_matches ((i + 1) % (n : Int)) i).isSome = true
          ∧ (i + 1) % (n : Int) ∈ st'.graph i ∧ i ∈ st'.graph ((i + 1) % (n : Int))) := by
  unfold assume_pano_pairwise
  refine ⟨?_, ?_, ?_⟩
  · have hok := pano_loop_ok_iff n fit (REP n) st
    constructor
    · rintro ⟨e, he⟩
      by_contra hcon
      have hall : ∀ i ∈ REP n, fit i ((i + 1) % (n : Int)) ≠ none := by
        intro i hi hnone
        exact hcon ⟨i, (mem_REP.1 hi).1, (mem_REP.1 hi).2, hnone⟩
      obtain ⟨st', hst'⟩ := hok.2 hall
      rw [he] at hst'
      cases hst'
    · rintro ⟨i, h0, hn, hnone⟩
      cases hrun : pano_loop n fit (REP n) st with
      | error e => exact ⟨e, rfl⟩
      | ok st' => exact absurd hnone (hok.1 ⟨st', hrun⟩ i (mem_REP.2 ⟨h0, hn⟩))
  · intro e he
    exact pano_loop_error n fit n _ 0 st e rfl he
  · intro st' hst' i h0 hn
    exact pano_loop_establishes n fit
      (fun s => (s.pairwise_matches i ((i + 1) % (n : Int))).isSome = true
          ∧ (s.pairwise_matches ((i + 1) % (n : Int)) i).isSome = true
          ∧ (i + 1) % (n : Int) ∈ s.graph i ∧ i ∈ s.graph ((i + 1) % (n : Int))) i
      (fun s info => record_slots s i _ info)
      (fun s j info hq =>
        ⟨(record_monotone s j _ info _ _).1 hq.1, (record_monotone s j _ info _ _).1 hq.2.1,
         (record_monotone s j _ info _ _).2 hq.2.2.1, (record_monotone s j _ info _ _).2 hq.2.2.2⟩)
      (REP n) (mem_REP.2 ⟨h0, hn⟩) st st' hst'

section InverseLemmas

variable {H : Type} [Mul H] [One H] [Inv H]

/-- Recording a pair of two different indices keeps the slots in mutually inverse pairs. -/
theorem record_inverse_pairs (st : PairState H) (i next : Int) (info : MatchInfo H)
    (hne : i ≠ next)
    (hinv : info.homo⁻¹ * info.homo = 1 ∧ info.homo * info.homo⁻¹ = 1)
    (hst : st.inverse_pairs) : (st.record i next info).inverse_pairs := by
  intro a b f hf
  simp only [PairState.record, set_match] at hf ⊢
  by_cases h1 : a = next ∧ b = i
  · obtain ⟨rfl, rfl⟩ := h1
    simp only [and_self, if_true, Option.some.injEq] at hf
    subst hf
    refine ⟨info, ?_, hinv.2, hinv.1⟩
    simp [hne, Ne.symm hne]
  · by_cases h2 : a = i ∧ b = next
    · obtain ⟨rfl, rfl⟩ := h2
      simp only [h1, if_false, and_self, if_true, Option.some.injEq] at hf
      subst hf
      exact ⟨{ info with homo := info.homo⁻¹ }, by simp, hinv.1, hinv.2⟩
    · simp only [h1, h2, if_false] at hf
      obtain ⟨r, hr, h3, h4⟩ := hst a b f hf
      refine ⟨r, ?_, h3, h4⟩
      have h1' : ¬(b = next ∧ a = i) := fun h => h2 ⟨h.2, h.1⟩
      have h2' : ¬(b = i ∧ a = next) := fun h => h1 ⟨h.2, h.1⟩
      simp [h1', h2', hr]

end InverseLemmas

/-- C2 (as stated, at `n = 1`): with a single image the pair `(0, 0)` is its own mirror; the one
slot `pairwise_matches[0][0]` ends up holding the inverse of the fitted translation, so the stored
"reverse" and "forward" homographies are the same matrix and do not compose to the identity. -/
theorem assume_pano_pairwise_single_image_not_inverse :
    ∃ st' f r, assume_pano_pairwise 1 shift_fit PairState.empty = .ok st'
      ∧ st'.pairwise_matches 0 ((0 + 1) % ((1 : Nat) : Int)) = some f
      ∧ st'.pairwise_matches ((0 + 1) % ((1 : Nat) : Int)) 0 = some r
      ∧ f.homo = Mat3.shift (-1) 0 ∧ r.homo = Mat3.shift (-1) 0
      ∧ r.homo * f.homo ≠ 1 ∧ r.homo ≠ f.homo⁻¹
      ∧ (Mat3.shift 1 0)⁻¹ * Mat3.shift 1 0 = 1 ∧ Mat3.shift 1 0 * (Mat3.shift 1 0)⁻¹ = 1 := by
  refine ⟨_, ⟨8, 1, Mat3.shift (-1) 0⟩, ⟨8, 1, Mat3.shift (-1) 0⟩, rfl, ?_, ?_, rfl, rfl,
    ?_, ?_, ?_, ?_⟩ <;> decide!

/-- C2 (amended): for `n ≥ 2` images, starting from an empty `pairwise_matches` and with
`inverse()` returning a two-sided inverse of every fitted homography, a successful
`assume_pano_pairwise` leaves, for every `i < n` and `next = (i+1) mod n`, a forward entry and a
reverse entry whose homographies are two-sided inverses of each other; hence under any action of
homographies on points, transforming forward and then backward returns the point. -/
theorem assume_pano_pairwise_inverse {H : Type} [Mul H] [One H] [Inv H] (n : Nat)
    (fit : Int → Int → Option (MatchInfo H)) (st st' : PairState H) (hn : 2 ≤ n)
    (hempty : ∀ a b, st.pairwise_matches a b = none)
    (hinv : ∀ i next info, fit i next = some info →
      info.homo⁻¹ * info.homo = 1 ∧ info.homo * info.homo⁻¹ = 1)
    (hrun : assume_pano_pairwise n fit st = .ok st') :
    ∀ i : Int, 0 ≤ i → i < n →
      ∃ f r, st'.pairwise_matches i ((i + 1) % (n : Int)) = some f
        ∧ st'.pairwise_matches ((i + 1) % (n : Int)) i = some r
        ∧ r.homo * f.homo = 1 ∧ f.homo * r.homo = 1
        ∧ ∀ (P : Type) (trans : H → P → P), (∀ a b p, trans (a * b) p = trans a (trans b p)) →
            (∀ p, trans 1 p = p) → ∀ p, trans r.homo (trans f.homo p) = p := by
  intro i h0 hi
  have hpairs : st'.inverse_pairs :=
    pano_loop_preserves n fit (fun s => s.inverse_pairs) (REP n)
      (fun s j info hj hfit hs =>
        record_inverse_pairs s j _ info
          (by
            have := mem_REP.1 hj
            intro heq
            have h1 : (j + 1) % (n : Int) = j + 1 ∨ ((j + 1) % (n : Int) = 0 ∧ j + 1 = n) := by
              by_cases hlast : j + 1 = n
              · right; rw [hlast]; exact ⟨Int.emod_self, rfl⟩
              · left; exact Int.emod_eq_of_lt (by omega) (by omega)
            generalize (j + 1) % (n : Int) = m at heq h1
            omega)
          (hinv j _ info hfit) hs)
      st st' (fun a b f hf => by rw [hempty] at hf; cases hf) hrun
  have hsome : (st'.pairwise_matches i ((i + 1) % (n : Int))).isSome = true :=
    (pano_loop_establishes n fit
      (fun s => (s.pairwise_matches i ((i + 1) % (n : Int))).isSome = true) i
      (fun s info => (record_slots s i _ info).1)
      (fun s j info hq => (record_monotone s j _ info _ _).1 hq)
      (REP n) (mem_REP.2 ⟨h0, hi⟩) st st' hrun)
  obtain ⟨f, hf⟩ := Option.isSome_iff_exists.1 hsome
  obtain ⟨r, hr, h1, h2⟩ := hpairs _ _ f hf
  refine ⟨f, r, hf, hr, h1, h2, ?_⟩
  intro P trans hmul hone p
  rw [← hmul, h1, hone]

/-- The amended C2 at three images that all fit with the same translation. -/
theorem assume_pano_pairwise_inverse_witness :
    ∃ st', assume_pano_pairwise 3 shift_fit PairState.empty = .ok st'
      ∧ ∀ i : Int, 0 ≤ i → i < (3 : Nat) →
        ∃ f r, st'.pairwise_matches i ((i + 1) % ((3 : Nat) : Int)) = some f
          ∧ st'.pairwise_matches ((i + 1) % ((3 : Nat) : Int)) i = some r
          ∧ r.homo * f.homo = 1 ∧ f.homo * r.homo = 1
          ∧ ∀ (P : Type) (trans : Mat3 → P → P),
              (∀ a b p, trans (a * b) p = trans a (trans b p)) →
              (∀ p, trans 1 p = p) → ∀ p, trans r.homo (trans f.homo p) = p :=
  ⟨_, rfl, assume_pano_pairwise_inverse 3 shift_fit PairState.empty _ (by decide)
    (fun _ _ => rfl)
    (fun i next info h => by
      simp only [shift_fit, Option.some.injEq] at h
      subst h
      decide!)
    rfl⟩

/-- C8 (evaluated): with an inconclusive focal estimate, a 640×480 image gets the focal length
`0.5` because `640 / 480` is the integer quotient `1`, whereas the aspect ratio times `0.5` is
`2/3`; a 480×640 image gets the focal length `0`. -/
theorem estimate_camera_integer_quotient :
    estimate_camera 0 [⟨640, 480⟩, ⟨480, 640⟩] [⟨1⟩, ⟨1⟩] = [⟨1 / 2⟩, ⟨0⟩]
      ∧ ((640 : ℚ) / 480) * (1 / 2) = 2 / 3 ∧ ((480 : ℚ) / 640) * (1 / 2) = 3 / 8
      ∧ (1 / 2 : ℚ) ≠ 2 / 3 ∧ (0 : ℚ) ≠ 3 / 8 := by
  decide!

section BlendLemmas

theorem REPL_getElem (a b : Int) (d : Nat) :
    (REPL a b)[d]? = if d < (b - a).toNat then some (a + (d : Int)) else none := by
  unfold REPL
  rw [List.getElem?_map]
  split
  · rw [List.getElem?_range ‹_›]
    rfl
  · rw [List.getElem?_eq_none (by rw [List.length_range]; omega)]
    rfl

theorem REP_getElem {n i : Int} (h0 : 0 ≤ i) (hn : i < n) : (REP n)[i.toNat]? = some i := by
  unfold REP
  rw [REPL_getElem, if_pos (by omega)]
  congr 1
  omega

/-- What the bounds test leaves: the sentinel or an in-bounds coordinate. -/
theorem clip_to_image_spec (img : Img) (p : Option Vec2D) :
    clip_to_image img p = none
      ∨ ∃ q, clip_to_image img p = some q ∧ p = some q
          ∧ 0 ≤ q.x ∧ q.x < img.width ∧ 0 ≤ q.y ∧ q.y < img.height := by
  cases p with
  | none => left; rfl
  | some q =>
    simp only [clip_to_image]
    split_ifs with h
    · left; rfl
    · right
      simp only [not_or, not_lt, ge_iff_le, not_le] at h
      exact ⟨q, rfl, rfl, h.1, h.2.1, h.2.2.1, h.2.2.2⟩

end BlendLemmas

/-- The canvas size outside the hypotheses of the scaling law: a target of `3·10⁹` pixels does
not fit in an `int`, a reference image of width zero makes the density a NaN, and a projection
that does not separate the two reference corners makes the density zero; in each case the
conversion delivers `INT_MIN`. -/
theorem blend_canvas_unrepresentable :
    (blend_canvas flat_homo2proj 640 480 ⟨⟨0, 0⟩, ⟨3000000000, 5⟩⟩).size = ⟨INT_MIN, 5⟩
      ∧ (blend_canvas flat_homo2proj 640 480 ⟨⟨0, 0⟩, ⟨1000000000, 5⟩⟩).size = ⟨1000000000, 5⟩
      ∧ (blend_canvas flat_homo2proj 0 480 ⟨⟨0, 0⟩, ⟨3, 3⟩⟩).x_per_pixel = FloatVal.nan
      ∧ (blend_canvas flat_homo2proj 0 480 ⟨⟨0, 0⟩, ⟨3, 3⟩⟩).size = ⟨INT_MIN, 3⟩
      ∧ (blend_canvas (fun _ => ⟨0, 0⟩) 640 480 ⟨⟨0, 0⟩, ⟨3, 3⟩⟩).target_width
          = FloatVal.pos_inf
      ∧ (blend_canvas (fun _ => ⟨0, 0⟩) 640 480 ⟨⟨0, 0⟩, ⟨3, 3⟩⟩).size = ⟨INT_MIN, INT_MIN⟩ := by
  decide!

/-- C6: in every layer that `blend` hands to the blender, each entry of `orig_pos` is the
undefined sentinel or a coordinate inside `[0, width) × [0, height)` of the layer's image; for
every component, the entry of each pixel `(i, j)` of its placement rectangle is the computed
coordinate after the bounds test, and a computed coordinate outside the image is stored as the
sentinel. -/
theorem blend_orig_pos_in_bounds {H : Type} (homo2proj : Vec → Vec2D) (proj2homo : Vec2D → Vec)
    (trans_normalize : H → Vec → Option Vec2D) (ref : Img) (proj_range : Range)
    (component : List (Component H)) :
    (∀ L ∈ (blend homo2proj proj2homo trans_normalize ref proj_range component).2,
      ∀ i j e, L.at i j = some e →
        e = none ∨ ∃ p, e = some p ∧ 0 ≤ p.x ∧ p.x < L.img.width ∧ 0 ≤ p.y ∧ p.y < L.img.height)
    ∧ (∀ cur ∈ component,
        ∃ L ∈ (blend homo2proj proj2homo trans_normalize ref proj_range component).2,
          L.img = cur.imgptr
          ∧ ∀ i j : Int, 0 ≤ i →
              i < (placement (blend_env homo2proj proj2homo trans_normalize ref proj_range) cur).h →
              0 ≤ j →
              j < (placement (blend_env homo2proj proj2homo trans_normalize ref proj_range) cur).w →
            L.at i j = some (clip_to_image cur.imgptr
                (computed_pos (blend_env homo2proj proj2homo trans_normalize ref proj_range) cur
                  L.top_left i j))
            ∧ ∀ q, computed_pos (blend_env homo2proj proj2homo trans_normalize ref proj_range) cur
                  L.top_left i j = some q →
                (q.x < 0 ∨ q.x ≥ cur.imgptr.width ∨ q.y < 0 ∨ q.y ≥ cur.imgptr.height) →
                L.at i j = some none) := by
  constructor
  · intro L hL i j e he
    simp only [blend, List.mem_map] at hL
    obtain ⟨cur, _, rfl⟩ := hL
    simp only [Layer.at, blend_component] at he
    split at he
    · rename_i row hrow
      have hrow' := List.getElem?_mem hrow
      have he' := List.getElem?_mem he
      simp only [List.mem_map] at hrow'
      obtain ⟨i', _, rfl⟩ := hrow'
      simp only [List.mem_map] at he'
      obtain ⟨j', _, rfl⟩ := he'
      rcases clip_to_image_spec cur.imgptr (computed_pos _ cur _ i' j') with h | ⟨q, h, _, hb⟩
      · left; exact h
      · right; exact ⟨q, h, hb⟩
    · cases he
  · intro cur hcur
    refine ⟨blend_component (blend_env homo2proj proj2homo trans_normalize ref proj_range) cur,
      ?_, rfl, ?_⟩
    · simp only [blend, List.mem_map]
      exact ⟨cur, hcur, rfl⟩
    · intro i j hi0 hih hj0 hjw
      have hat : (blend_component (blend_env homo2proj proj2homo trans_normalize ref proj_range)
          cur).at i j = some (clip_to_image cur.imgptr
            (computed_pos (blend_env homo2proj proj2homo trans_normalize ref proj_range) cur
              (blend_component (blend_env homo2proj proj2homo trans_normalize ref proj_range)
                cur).top_left i j)) := by
        simp only [Layer.at, blend_component, List.getElem?_map, REP_getElem hi0 hih,
          REP_getElem hj0 hjw, Option.map_some']
      refine ⟨hat, ?_⟩
      intro q hq hout
      rw [hat, hq]
      simp only [clip_to_image, if_pos hout]

section SearchLemmas

variable {H : Type} [Mul H]

/-- A call of `update_h_factor` never raises `minslope`. -/
theorem update_h_factor_minslope_le (env : WarpEnv H) (n : Nat) (mid : Int) (f : ℚ)
    (s : WarpSearch H) : (update_h_factor env n mid f s).2.minslope ≤ s.minslope := by
  unfold update_h_factor
  simp only []
  split
  · exact le_refl _
  · split
    · exact le_refl _
    · split
      · split_ifs with h
        · exact le_of_lt h
        · exact le_refl _
      · exact le_refl _

/-- One step of the refinement loop. -/
theorem refine_factor_succ (env : WarpEnv H) (n : Nat) (mid : Int) (order : ℚ) (R k : Nat)
    (nf : ℚ) (slope : FloatVal) (s : WarpSearch H) :
    refine_factor env n mid order (R + 1) k nf slope s =
      if slope.fabs.lt env.slope_plain then s
      else
        refine_factor env n mid order R (k + 1) (next_factor order k nf slope)
          (update_h_factor env n mid (next_factor order k nf slope) s).1
          (update_h_factor env n mid (next_factor order k nf slope) s).2 := rfl

/-- One more round of refinement never raises `minslope`. -/
theorem refine_factor_succ_le (env : WarpEnv H) (n : Nat) (mid : Int) (order : ℚ) (R : Nat) :
    ∀ (k : Nat) (nf : ℚ) (slope : FloatVal) (s : WarpSearch H),
      (refine_factor env n mid order (R + 1) k nf slope s).minslope
        ≤ (refine_factor env n mid order R k nf slope s).minslope := by
  induction R with
  | zero =>
    intro k nf slope s
    rw [refine_factor_succ]
    by_cases hb : slope.fabs.lt env.slope_plain = true
    · rw [if_pos hb]
      exact le_refl _
    · rw [if_neg hb]
      exact update_h_factor_minslope_le env n mid _ s
  | succ R ih =>
    intro k nf slope s
    rw [refine_factor_succ env n mid order (R + 1) k nf slope s,
      refine_factor_succ env n mid order R k nf slope s]
    by_cases hb : slope.fabs.lt env.slope_plain = true
    · rw [if_pos hb, if_pos hb]
    · rw [if_neg hb, if_neg hb]
      exact ih _ _ _ _

/-- A comparison that fails against a bound fails against every smaller bound. -/
theorem FloatVal.fabs_lt_false_of_le (x : FloatVal) {a m : ℚ} (ham : a ≤ m)
    (h : x.fabs.lt m = false) : x.fabs.lt a = false := by
  cases x <;> simp only [FloatVal.fabs, FloatVal.lt, decide_eq_false_iff_not, not_lt] at h ⊢
  exact le_trans ham h

/-- A call of `update_h_factor` appends its factor to the log. -/
theorem update_h_factor_trials (env : WarpEnv H) (n : Nat) (mid : Int) (f : ℚ)
    (s : WarpSearch H) : (update_h_factor env n mid f s).2.trials = s.trials ++ [f] := by
  unfold update_h_factor
  simp only []
  split
  · rfl
  · split
    · rfl
    · split
      · split_ifs <;> rfl
      · rfl

/-- A call of `update_h_factor` keeps `minslope` minimal over the valid trials run. -/
theorem update_h_factor_is_minimal (env : WarpEnv H) (n : Nat) (mid : Int) (f : ℚ)
    (s : WarpSearch H) (hs : s.is_minimal env n mid) :
    (update_h_factor env n mid f s).2.is_minimal env n mid := by
  intro f' hf' chain last hchain hlast
  rw [update_h_factor_trials, List.mem_append, List.mem_singleton] at hf'
  have hle := update_h_factor_minslope_le env n mid f s
  rcases hf' with hold | rfl
  · exact FloatVal.fabs_lt_false_of_le _ hle (hs f' hold chain last hchain hlast)
  · unfold update_h_factor
    simp only [hchain, hlast]
    generalize hx : (chain_slope env last).fabs = x
    cases x with
    | finite a =>
      simp only []
      split_ifs with h
      · simp [FloatVal.lt]
      · simpa [FloatVal.lt] using h
    | pos_inf => rfl
    | neg_inf =>
      exfalso
      revert hx
      cases chain_slope env last <;> simp [FloatVal.fabs]
    | nan => rfl

/-- A call of `update_h_factor` keeps a non-empty `mat` non-empty and the best factor trialed. -/
theorem update_h_factor_best (env : WarpEnv H) (n : Nat) (mid : Int) (f : ℚ)
    (s : WarpSearch H) (hs : s.mat ≠ [] → s.best_is_trialed env n mid) :
    (s.mat ≠ [] → (update_h_factor env n mid f s).2.mat ≠ [])
      ∧ ((update_h_factor env n mid f s).2.mat ≠ [] →
          (update_h_factor env n mid f s).2.best_is_trialed env n mid) := by
  have keep : ∀ s' : WarpSearch H, s'.minslope = s.minslope → s'.bestfactor = s.bestfactor →
      s'.mat = s.mat → s'.trials = s.trials ++ [f] →
      (s.mat ≠ [] → s'.mat ≠ []) ∧ (s'.mat ≠ [] → s'.best_is_trialed env n mid) := by
    intro s' h1 h2 h3 h4
    refine ⟨fun h => h3 ▸ h, fun h => ?_⟩
    obtain ⟨hmem, chain, last, hc, hm, hl, hsl⟩ := hs (h3 ▸ h)
    exact ⟨by rw [h2, h4]; exact List.mem_append_left _ hmem, chain, last, by rw [h2]; exact hc,
      by rw [h3]; exact hm, hl, by rw [h1]; exact hsl⟩
  unfold update_h_factor
  simp only []
  split
  · exact keep _ rfl rfl rfl rfl
  · rename_i nowmat hchain
    split
    · exact keep _ rfl rfl rfl rfl
    · rename_i last hlast
      split
      · rename_i a ha
        split_ifs with h
        · have hne : nowmat ≠ [] := by
            intro h0
            rw [h0] at hlast
            cases hlast
          exact ⟨fun _ => hne, fun _ => ⟨by simp, nowmat, last, hchain, rfl, hlast, ha⟩⟩
        · exact keep _ rfl rfl rfl rfl
      · exact keep _ rfl rfl rfl rfl

/-- The refinement loop preserves the facts about the best trial. -/
theorem refine_factor_invariant (env : WarpEnv H) (n : Nat) (mid : Int) (order : ℚ) (R : Nat) :
    ∀ (k : Nat) (nf : ℚ) (slope : FloatVal) (s : WarpSearch H),
      s.mat ≠ [] → s.best_is_trialed env n mid → s.is_minimal env n mid →
      (refine_factor env n mid order R k nf slope s).mat ≠ []
        ∧ (refine_factor env n mid order R k nf slope s).best_is_trialed env n mid
        ∧ (refine_factor env n mid order R k nf slope s).is_minimal env n mid := by
  induction R with
  | zero =>
    intro k nf slope s h1 h2 h3
    exact ⟨h1, h2, h3⟩
  | succ R ih =>
    intro k nf slope s h1 h2 h3
    rw [refine_factor_succ]
    by_cases hbreak : slope.fabs.lt env.slope_plain = true
    · rw [if_pos hbreak]
      exact ⟨h1, h2, h3⟩
    · rw [if_neg hbreak]
      have hb := update_h_factor_best env n mid (next_factor order k nf slope) s (fun _ => h2)
      exact ih _ _ _ _ (hb.1 h1) (hb.2 (hb.1 h1)) (update_h_factor_is_minimal env n mid _ s h3)

/-- A search that ran (`n - mid > 1`) and did not abort ends with the facts about the best
trial. -/
theorem warp_search_ok (env : WarpEnv H) (R n : Nat) (s : WarpSearch H)
    (hn : (n : Int) - (n : Int) / 2 > 1) (h : warp_search env R n = .ok s) :
    s.mat ≠ [] ∧ s.best_is_trialed env n ((n : Int) / 2) ∧ s.is_minimal env n ((n : Int) / 2) := by
  unfold warp_search at h
  simp only [hn, if_true] at h
  split at h
  · cases h
  · rename_i first rest hmat
    simp only [Except.ok.injEq] at h
    subst h
    have hb := update_h_factor_best env n ((n : Int) / 2) 1
      { minslope := FLT_MAX, bestfactor := 1, mat := [], trials := [] } (fun h => absurd rfl h)
    have hne : (update_h_factor env n ((n : Int) / 2) 1
        { minslope := FLT_MAX, bestfactor := 1, mat := [], trials := [] }).2.mat ≠ [] := by
      rw [hmat]
      exact List.cons_ne_nil _ _
    exact refine_factor_invariant env n _ _ R _ _ _ _ hne (hb.2 hne)
      (update_h_factor_is_minimal env n _ _ _ (fun f hf => absurd hf (List.not_mem_nil f)))

end SearchLemmas

/-- C3: for every round budget `R` and every input, the search with budget `R + 1` aborts exactly
when the search with budget `R` aborts (with the same error), and otherwise ends with a
`minslope` that is at most the `minslope` of the search with budget `R`. -/
theorem warp_search_budget_monotone {H : Type} [Mul H] (env : WarpEnv H) (R n : Nat) :
    match warp_search env (R + 1) n, warp_search env R n with
    | .ok s', .ok s => s'.minslope ≤ s.minslope
    | .error e', .error e => e' = e
    | _, _ => False := by
  unfold warp_search
  simp only []
  by_cases hn : (n : Int) - (n : Int) / 2 > 1
  · simp only [hn, if_true]
    cases (update_h_factor env n ((n : Int) / 2) 1
        { minslope := FLT_MAX, bestfactor := 1, mat := [], trials := [] }).2.mat with
    | nil => rfl
    | cons first rest => exact refine_factor_succ_le env n _ _ R _ _ _ _
  · simp only [hn, if_false]
    exact le_refl _

section BundleLemmas

variable {H : Type}

theorem set_homo_homo (b : ConnectedImages H) (k : Int) (h : H) (j : Int) :
    ((b.set_homo k h).component j).homo = if j = k then h else (b.component j).homo := by
  simp only [ConnectedImages.set_homo, Function.update_apply]
  split_ifs with hjk
  · rfl
  · rfl

theorem set_homo_inv_homo (b : ConnectedImages H) (k : Int) (h : H) (j : Int) :
    ((b.set_homo_inv k h).component j).homo = (b.component j).homo := by
  simp only [ConnectedImages.set_homo_inv, Function.update_apply]
  split_ifs with hjk
  · rw [hjk]
  · rfl

/-- A loop that assigns `f k` to `component[k].homo` for every `k` of a list. -/
theorem foldl_set_homo (f : Int → H) (l : List Int) (b : ConnectedImages H) (j : Int) :
    ((l.foldl (fun b k => b.set_homo k (f k)) b).component j).homo
      = if j ∈ l then f j else (b.component j).homo := by
  induction l generalizing b with
  | nil => simp
  | cons k l ih =>
    rw [List.foldl_cons, ih]
    by_cases hjl : j ∈ l
    · simp [hjl]
    · by_cases hjk : j = k
      · subst hjk
        simp [hjl, set_homo_homo]
      · simp [hjl, hjk, set_homo_homo]

/-- The pass `calc_inverse_homo` leaves every `homo` as it is. -/
theorem calc_inverse_homo_homo [Inv H] (n : Nat) (b : ConnectedImages H) (j : Int) :
    ((calc_inverse_homo n b).component j).homo = (b.component j).homo := by
  unfold calc_inverse_homo
  generalize REP (n : Int) = l
  induction l generalizing b with
  | nil => rfl
  | cons k l ih =>
    rw [List.foldl_cons, ih, set_homo_inv_homo]
    rfl

/-- A successful reverse-fit loop stores the fitted homography of every index of its list and
leaves the other components as they are. -/
theorem reverse_fit_loop_ok (env : WarpEnv H) (bf : ℚ) (l : List Int)
    (b b' : ConnectedImages H) (h : reverse_fit_loop env bf l b = .ok b') (j : Int) :
    (j ∈ l → env.fit_reverse bf j = some (b'.component j).homo)
      ∧ (j ∉ l → (b'.component j).homo = (b.component j).homo) := by
  induction l generalizing b with
  | nil =>
    simp only [reverse_fit_loop, Except.ok.injEq] at h
    subst h
    simp
  | cons i l ih =>
    simp only [reverse_fit_loop] at h
    cases hfit : env.fit_reverse bf i with
    | none => rw [hfit] at h; cases h
    | some g =>
      rw [hfit] at h
      have ih' := ih _ h
      constructor
      · intro hj
        by_cases hjl : j ∈ l
        · exact ih'.1 hjl
        · have hji : j = i := by
            rcases List.mem_cons.1 hj with h1 | h1
            · exact h1
            · exact absurd h1 hjl
          subst hji
          rw [ih'.2 hjl, set_homo_homo, if_pos rfl, hfit]
      · intro hj
        have hjl : j ∉ l := fun h1 => hj (List.mem_cons_of_mem _ h1)
        have hji : j ≠ i := fun h1 => hj (h1 ▸ List.mem_cons_self _ _)
        rw [ih'.2 hjl, set_homo_homo, if_neg hji]

theorem warp_left_step_homo [Mul H] (b : ConnectedImages H) (i j : Int) :
    ((warp_left_step b i).component j).homo
      = if j = i then (b.component (i + 1)).homo * (b.component i).homo
        else (b.component j).homo := by
  unfold warp_left_step
  rw [set_homo_homo]
  rfl

/-- The loop `REPD(i, a, 0)` of `build_bundle_warp` turns the homographies below `a + 1` into
running products that start from `component[a + 1].homo`. -/
theorem warp_left_fold [Mul H] (m : Nat) :
    ∀ (a : Int) (b : ConnectedImages H), (a + 1).toNat = m →
      (∀ j, a < j →
        (((REPD a 0).foldl warp_left_step b).component j).homo = (b.component j).homo)
      ∧ (∀ k, 0 ≤ k → k ≤ a →
        (((REPD a 0).foldl warp_left_step b).component k).homo
          = ((REPD a k).map (fun j => (b.component j).homo)).foldl (· * ·)
              (b.component (a + 1)).homo) := by
  induction m with
  | zero =>
    intro a b hm
    rw [REPD_empty (by omega)]
    exact ⟨fun _ _ => rfl, fun k h0 hk => by omega⟩
  | succ m ih =>
    intro a b hm
    rw [REPD_succ (by omega : (0 : Int) ≤ a), List.foldl_cons]
    obtain ⟨ih1, ih2⟩ := ih (a - 1) (warp_left_step b a) (by omega)
    constructor
    · intro j hj
      rw [ih1 j (by omega), warp_left_step_homo, if_neg (by omega)]
    · intro k h0 hk
      by_cases hka : k = a
      · subst hka
        rw [ih1 k (by omega), warp_left_step_homo, if_pos rfl, REPD_succ (le_refl k),
          REPD_empty (by omega)]
        rfl
      · rw [ih2 k h0 (by omega), REPD_succ (by omega : k ≤ a), List.map_cons, List.foldl_cons]
        have hcongr : (REPD (a - 1) k).map (fun j => ((warp_left_step b a).component j).homo)
            = (REPD (a - 1) k).map (fun j => (b.component j).homo) := by
          apply List.map_congr_left
          intro j hj
          have := mem_REPD.1 hj
          rw [warp_left_step_homo, if_neg (by omega)]
        rw [hcongr, warp_left_step_homo, if_pos (by omega)]

theorem collect_fits_some (l : List (Option H)) (hs : List H) (h : collect_fits l = some hs) :
    l = hs.map some := by
  induction l generalizing hs with
  | nil =>
    simp only [collect_fits, Option.some.injEq] at h
    subst h
    rfl
  | cons x l ih =>
    cases x with
    | none => simp [collect_fits] at h
    | some y =>
      simp only [collect_fits, Option.map_eq_some'] at h
      obtain ⟨hs', hc, rfl⟩ := h
      rw [ih hs' hc]
      rfl

theorem compose_from_get [Mul H] (l : List H) :
    ∀ (acc : H) (d : Nat), (compose_from acc l)[d]?
      = if d < l.length then some ((l.take (d + 1)).foldl (· * ·) acc) else none := by
  induction l with
  | nil => intro acc d; simp [compose_from]
  | cons x l ih =>
    intro acc d
    cases d with
    | zero => simp [compose_from]
    | succ d =>
      simp only [compose_from, List.getElem?_cons_succ, ih, List.length_cons,
        Nat.add_lt_add_iff_right, List.take_succ_cons, List.foldl_cons]

theorem compose_chain_get [Mul H] [One H] (hs : List H) (d : Nat) :
    (compose_chain hs)[d]?
      = if d < hs.length then some (chain_prod (hs.take (d + 1))) else none := by
  cases hs with
  | nil => simp [compose_chain]
  | cons h t =>
    cases d with
    | zero => simp [compose_chain, chain_prod]
    | succ d =>
      simp only [compose_chain, List.getElem?_cons_succ, compose_from_get, List.length_cons,
        Nat.add_lt_add_iff_right, List.take_succ_cons, chain_prod]

/-- The structure of a run of `build_bundle_warp` that does not abort. -/
theorem build_bundle_warp_rounds_ok [Mul H] [One H] [Inv H] (env : WarpEnv H) (R n : Nat)
    (b b' : ConnectedImages H) (s : WarpSearch H)
    (h : build_bundle_warp_rounds env R n b = .ok (b', s)) :
    warp_search env R n = .ok s
      ∧ ∃ b3, reverse_fit_loop env s.bestfactor (REPD ((n : Int) / 2 - 1) 0)
            ((REPL ((n : Int) / 2 + 1) n).foldl
              (fun b k => b.set_homo k (chain_at s.mat (k - (n : Int) / 2 - 1)))
              ((REP n).foldl (fun b i => b.set_homo i 1)
                { b with identity_idx := (n : Int) / 2 })) = .ok b3
          ∧ b' = calc_inverse_homo n ((REPD ((n : Int) / 2 - 2) 0).foldl warp_left_step b3) := by
  unfold build_bundle_warp_rounds at h
  simp only [] at h
  split_ifs at h
  cases hs : warp_search env R n with
  | error e => rw [hs] at h; cases h
  | ok s0 =>
    rw [hs] at h
    simp only [] at h
    split at h
    · cases h
    · rename_i b3 hb3
      simp only [Except.ok.injEq, Prod.mk.injEq] at h
      obtain ⟨h1, h2⟩ := h
      subst h2
      exact ⟨rfl, b3, hb3, h1.symm⟩

end BundleLemmas

/-- C4 (as stated, refuted): with two images the guard `n - mid > 1` is false, so
`build_bundle_warp` completes without a single call of `update_h_factor`; the factor it returns is
the initial `1`, which is none of the (zero) factors trialed, and `bestmat` is empty. -/
theorem build_bundle_warp_two_images_no_trial :
    ∃ b s, build_bundle_warp drift_env 2 blank_bundle = .ok (b, s)
      ∧ s.bestfactor = 1 ∧ s.trials = [] ∧ s.bestfactor ∉ s.trials ∧ s.mat = [] :=
  ⟨_, _, rfl, rfl, rfl, List.not_mem_nil _, rfl⟩

/-- C4 (amended): for `n ≥ 3` images, whenever `build_bundle_warp` does not abort, the returned
`bestfactor` is one of the factors passed to `update_h_factor`, the trial with that factor is
valid, `bestmat` is the composed chain of that trial, `minslope` is the `|slope|` of that chain,
and no valid trial that was run has a smaller `|slope|`. -/
theorem build_bundle_warp_best_factor {H : Type} [Mul H] [One H] [Inv H] (env : WarpEnv H)
    (n : Nat) (b b' : ConnectedImages H) (s : WarpSearch H) (hn : 3 ≤ n)
    (hrun : build_bundle_warp env n b = .ok (b', s)) :
    s.bestfactor ∈ s.trials
      ∧ (∃ chain last, trial_chain env n ((n : Int) / 2) s.bestfactor = some chain
          ∧ s.mat = chain ∧ chain.getLast? = some last
          ∧ (chain_slope env last).fabs = FloatVal.finite s.minslope)
      ∧ ∀ f ∈ s.trials, ∀ chain last, trial_chain env n ((n : Int) / 2) f = some chain →
          chain.getLast? = some last → (chain_slope env last).fabs.lt s.minslope = false := by
  obtain ⟨hs, _⟩ := build_bundle_warp_rounds_ok env 3 n b b' s hrun
  obtain ⟨_, hbest, hmin⟩ := warp_search_ok env 3 n s (by omega) hs
  exact ⟨hbest.1, hbest.2, hmin⟩

/-- The amended C4 at three images whose trial slope is `f - 11/10`. -/
theorem build_bundle_warp_best_factor_witness :
    ∃ b' s, build_bundle_warp drift_env 3 blank_bundle = .ok (b', s)
      ∧ s.bestfactor ∈ s.trials
      ∧ (∃ chain last, trial_chain drift_env 3 (((3 : Nat) : Int) / 2) s.bestfactor = some chain
          ∧ s.mat = chain ∧ chain.getLast? = some last
          ∧ (chain_slope drift_env last).fabs = FloatVal.finite s.minslope)
      ∧ ∀ f ∈ s.trials, ∀ chain last,
          trial_chain drift_env 3 (((3 : Nat) : Int) / 2) f = some chain →
          chain.getLast? = some last →
          (chain_slope drift_env last).fabs.lt s.minslope = false := by
  cases h : build_bundle_warp drift_env 3 blank_bundle with
  | error e =>
    have : (build_bundle_warp drift_env 3 blank_bundle).toBool = true := by decide!
    rw [h] at this
    cases this
  | ok p =>
    exact ⟨p.1, p.2, rfl, build_bundle_warp_best_factor drift_env 3 blank_bundle p.1 p.2
      (by decide) h⟩

/-- C9: for `n ≥ 3` images and `mid = n div 2`, whenever `build_bundle_warp` does not abort,
`component[mid].homo` is the identity; for every `k > mid`, `component[k].homo` is the
left-to-right product of the homographies fitted for the pairs `(mid, mid+1), …, (k-1, k)` in the
trial with the best factor; and for every `k < mid`, `component[k].homo` is the left-to-right
product of the homographies re-fitted in reverse for the pairs `(mid, mid-1), …, (k+1, k)` on the
features warped with the best factor. -/
theorem build_bundle_warp_chain {H : Type} [Mul H] [One H] [Inv H] (env : WarpEnv H)
    (n : Nat) (b b' : ConnectedImages H) (s : WarpSearch H) (hn : 3 ≤ n)
    (hrun : build_bundle_warp env n b = .ok (b', s)) :
    (b'.component ((n : Int) / 2)).homo = 1
      ∧ (∀ k : Int, (n : Int) / 2 < k → k < n →
          ∃ Hs : List H, (REPL ((n : Int) / 2) k).map (env.fit_warped s.bestfactor) = Hs.map some
            ∧ (b'.component k).homo = chain_prod Hs)
      ∧ (∀ k : Int, 0 ≤ k → k < (n : Int) / 2 →
          ∃ Gs : List H,
            (REPD ((n : Int) / 2 - 1) k).map (env.fit_reverse s.bestfactor) = Gs.map some
            ∧ (b'.component k).homo = chain_prod Gs) := by
  obtain ⟨hs, b3, hb3, rfl⟩ := build_bundle_warp_rounds_ok env 3 n b b' s hrun
  obtain ⟨_, ⟨_, chain, last, hchain, hmat, _, _⟩, _⟩ := warp_search_ok env 3 n s (by omega) hs
  have hmid : (1 : Int) ≤ (n : Int) / 2 := by omega
  obtain ⟨hleft1, hleft2⟩ :=
    warp_left_fold ((n : Int) / 2 - 2 + 1).toNat ((n : Int) / 2 - 2) b3 rfl
  refine ⟨?_, ?_, ?_⟩
  · rw [calc_inverse_homo_homo, hleft1 _ (by omega),
      (reverse_fit_loop_ok env _ _ _ _ hb3 _).2 (fun h => by have := mem_REPD.1 h; omega),
      foldl_set_homo, if_neg (fun h => by have := mem_REPL.1 h; omega),
      foldl_set_homo, if_pos (mem_REP.2 ⟨by omega, by omega⟩)]
  · intro k hk1 hk2
    rw [calc_inverse_homo_homo, hleft1 _ (by omega),
      (reverse_fit_loop_ok env _ _ _ _ hb3 _).2 (fun h => by have := mem_REPD.1 h; omega),
      foldl_set_homo, if_pos (mem_REPL.2 ⟨by omega, hk2⟩)]
    unfold trial_chain at hchain
    simp only [Option.map_eq_some'] at hchain
    obtain ⟨fits, hfits, hcomp⟩ := hchain
    have hmap := collect_fits_some _ _ hfits
    have hlen : fits.length = ((n : Int) - (n : Int) / 2 - 1).toNat := by
      have := congrArg List.length hmap
      simp only [List.length_map, REPL, List.length_range] at this
      rw [← this]
    refine ⟨fits.take (k - (n : Int) / 2).toNat, ?_, ?_⟩
    · rw [List.map_take, ← hmap]
      apply List.ext_getElem?
      intro d
      rw [List.getElem?_map, REPL_getElem, List.getElem?_take, List.getElem?_map, REPL_getElem]
      by_cases hd : d < (k - (n : Int) / 2).toNat
      · rw [if_pos hd, if_pos hd, if_pos (by omega)]
        simp only [Option.map_some', Option.some.injEq]
        congr 1
        omega
      · rw [if_neg hd, if_neg hd]
        rfl
    · unfold chain_at
      rw [hmat, ← hcomp, compose_chain_get, if_pos (by omega)]
      simp only []
      congr 2
      omega
  · intro k hk0 hk1
    rw [calc_inverse_homo_homo]
    refine ⟨(REPD ((n : Int) / 2 - 1) k).map (fun j => (b3.component j).homo), ?_, ?_⟩
    · rw [List.map_map]
      apply List.map_congr_left
      intro j hj
      have := mem_REPD.1 hj
      exact (reverse_fit_loop_ok env _ _ _ _ hb3 j).1 (mem_REPD.2 ⟨by omega, by omega⟩)
    · rw [REPD_succ (by omega : k ≤ (n : Int) / 2 - 1)]
      simp only [List.map_cons, chain_prod]
      by_cases hk : k = (n : Int) / 2 - 1
      · subst hk
        rw [hleft1 _ (by omega), REPD_empty (by omega)]
        rfl
      · rw [hleft2 k hk0 (by omega)]
        have h1 : (n : Int) / 2 - 2 + 1 = (n : Int) / 2 - 1 := by omega
        have h2 : (n : Int) / 2 - 1 - 1 = (n : Int) / 2 - 2 := by omega
        rw [h1, h2]

/-- C9 at five images whose trial slope is `f - 11/10`. -/
theorem build_bundle_warp_chain_witness :
    ∃ b' s, build_bundle_warp drift_env 5 blank_bundle = .ok (b', s)
      ∧ (b'.component (((5 : Nat) : Int) / 2)).homo = 1
      ∧ (∀ k : Int, ((5 : Nat) : Int) / 2 < k → k < (5 : Nat) →
          ∃ Hs : List Mat3,
            (REPL (((5 : Nat) : Int) / 2) k).map (drift_env.fit_warped s.bestfactor)
              = Hs.map some
            ∧ (b'.component k).homo = chain_prod Hs)
      ∧ (∀ k : Int, 0 ≤ k → k < ((5 : Nat) : Int) / 2 →
          ∃ Gs : List Mat3,
            (REPD (((5 : Nat) : Int) / 2 - 1) k).map (drift_env.fit_reverse s.bestfactor)
              = Gs.map some
            ∧ (b'.component k).homo = chain_prod Gs) := by
  cases h : build_bundle_warp drift_env 5 blank_bundle with
  | error e =>
    have : (build_bundle_warp drift_env 5 blank_bundle).toBool = true := by decide!
    rw [h] at this
    cases this
  | ok p =>
    exact ⟨p.1, p.2, rfl, build_bundle_warp_chain drift_env 5 blank_bundle p.1 p.2
      (by decide) h⟩

/-- C10 at three images. -/
theorem build_bundle_linear_simple_bounds_witness :
    ((∀ a ∈ (build_bundle_linear_simple 3 unit_shift_matches blank_bundle).trace,
        0 ≤ a.index ∧ a.index < ((3 : Nat) : Int)) ↔ 3 ≤ 3)
    ∧ (3 ≤ 3 → ∀ k : Int, 0 ≤ k → k < ((3 : Nat) : Int) →
        (build_bundle_linear_simple 3 unit_shift_matches blank_bundle).trace.count
          (Access.write_homo k) = 1)
    ∧ (3 = 1 ∨ 3 = 2 →
        Access.write_homo (((3 : Nat) : Int) / 2 + 1)
            ∈ (build_bundle_linear_simple 3 unit_shift_matches blank_bundle).trace
          ∧ ((3 : Nat) : Int) ≤ ((3 : Nat) : Int) / 2 + 1)
    ∧ (3 = 1 → Access.write_homo (-1)
        ∈ (build_bundle_linear_simple 3 unit_shift_matches blank_bundle).trace) :=
  build_bundle_linear_simple_bounds 3 unit_shift_matches blank_bundle rfl

/-- C1 (evaluated): on five images in a row, each shifted by one unit against its left neighbour
(so that `M[j][i]` is the inverse of `M[i][j]` for all pairs), `build_bundle_linear_simple` sets
`component[2]`, `component[3]` and `component[1]` as the path products demand, but its loops
multiply by `M[k][k-1]` and `M[k][k+1]` instead of `M[k-1][k]` and `M[k+1][k]`: `component[4]`
and `component[0]` become the identity, whereas the path products `M[2][3] * M[3][4]` and
`M[2][1] * M[1][0]` are the translations by `2` and by `-2`. -/
theorem build_bundle_linear_simple_reversed_pairs :
    (∀ i ∈ REP 5, ∀ j ∈ REP 5, unit_shift_matches j i = (unit_shift_matches i j)⁻¹
        ∧ unit_shift_matches j i * unit_shift_matches i j = 1)
      ∧ ((build_bundle_linear_simple 5 unit_shift_matches blank_bundle).component 2).homo = 1
      ∧ ((build_bundle_linear_simple 5 unit_shift_matches blank_bundle).component 3).homo
          = path_right unit_shift_matches 2 0
      ∧ ((build_bundle_linear_simple 5 unit_shift_matches blank_bundle).component 1).homo
          = path_left unit_shift_matches 2 0
      ∧ ((build_bundle_linear_simple 5 unit_shift_matches blank_bundle).component 4).homo
          = Mat3.shift 0 0
      ∧ path_right unit_shift_matches 2 1 = Mat3.shift 2 0
      ∧ ((build_bundle_linear_simple 5 unit_shift_matches blank_bundle).component 0).homo
          = Mat3.shift 0 0
      ∧ path_left unit_shift_matches 2 1 = Mat3.shift (-2) 0
      ∧ ((build_bundle_linear_simple 5 unit_shift_matches blank_bundle).component 4).homo
          ≠ path_right unit_shift_matches 2 1
      ∧ ((build_bundle_linear_simple 5 unit_shift_matches blank_bundle).component 0).homo
          ≠ path_left unit_shift_matches 2 1 := by
  decide!

/-! ## Evaluations of the model on small inputs -/

/-- Four images of which the pair `(1, 2)` does not fit: the run aborts naming that pair. -/
theorem assume_pano_pairwise_broken_pair :
    assume_pano_pairwise 4 broken_fit PairState.empty = .error (ErrorExit.doesnt_match 1 2) :=
  rfl

/-- Three images none of whose pairs fits: the warp search aborts. -/
theorem warp_search_all_fits_fail :
    warp_search failing_env 3 3 = .error ErrorExit.failed_hfactor :=
  rfl

/-- Five images whose trial slope is `f - 11/10`: one round of refinement leaves the best
`|slope|` at `1/10` (factor `1`), two rounds reach `0` (factor `11/10`) after the trials
`1, 6/5, 11/10`. -/
theorem warp_search_rounds_example :
    (∃ s, warp_search drift_env 1 5 = .ok s ∧ s.minslope = 1 / 10 ∧ s.bestfactor = 1
        ∧ s.trials = [1, 6 / 5])
      ∧ (∃ s, warp_search drift_env 2 5 = .ok s ∧ s.minslope = 0 ∧ s.bestfactor = 11 / 10
        ∧ s.trials = [1, 6 / 5, 11 / 10]) := by
  constructor
  · cases h : warp_search drift_env 1 5 with
    | error e =>
      have : (warp_search drift_env 1 5).toBool = true := by decide!
      rw [h] at this
      cases this
    | ok s =>
      have h1 : (match warp_search drift_env 1 5 with
          | .ok s => decide (s.minslope = 1 / 10 ∧ s.bestfactor = 1 ∧ s.trials = [1, 6 / 5])
          | .error _ => false) = true := by decide!
      rw [h] at h1
      exact ⟨s, rfl, of_decide_eq_true h1⟩
  · cases h : warp_search drift_env 2 5 with
    | error e =>
      have : (warp_search drift_env 2 5).toBool = true := by decide!
      rw [h] at this
      cases this
    | ok s =>
      have h1 : (match warp_search drift_env 2 5 with
          | .ok s => decide (s.minslope = 0 ∧ s.bestfactor = 11 / 10
              ∧ s.trials = [1, 6 / 5, 11 / 10])
          | .error _ => false) = true := by decide!
      rw [h] at h1
      exact ⟨s, rfl, of_decide_eq_true h1⟩

end Stitcher
